import Mathlib

/-!
Verification of the rustyms peptide-notation core: a shallow embedding of
`src/complex_peptide.rs`, `rustyms/src/linear_peptide.rs`,
`src/align/mass_alignment.rs` and the formula machinery, with theorems
settling the behavioural claims about parsing, display, digestion,
fragment generation and alignment scoring.

Code that the repository uses but whose source file is not present
(`shared/formula.rs`, `aminoacids.rs`, `modification.rs`, `fragment.rs`,
`model.rs`, the protease rule set and the scoring constants) is modelled
from the specification; every such definition carries a doc comment
starting with `Modelled from the spec:`.
-/

namespace Rustyms

/-- The chemical elements used by the embedded formulas.  `Electron` is the
pseudo-element allowed in charge-carrier notation. -/
inductive Element where
  | H | C | N | O | S | P | Na | Electron
  deriving DecidableEq, Repr

/-- A total order key for elements, used to keep formulas in a canonical
order (the source keeps the element list sorted and merged). -/
def Element.idx : Element → Nat
  | .H => 0
  | .C => 1
  | .N => 2
  | .O => 3
  | .S => 4
  | .P => 5
  | .Na => 6
  | .Electron => 7

/-- Modelled from the spec: the element mass table collaborator
(`element.is_valid(isotope) -> bool`); an isotope is valid when it is a
known isotope of the element, and `none` (natural abundance) is always
valid. -/
def Element.is_valid (e : Element) (iso : Option Nat) : Bool :=
  match iso with
  | none => true
  | some i =>
    match e with
    | .H => i == 1 || i == 2 || i == 3
    | .C => i == 12 || i == 13 || i == 14
    | .N => i == 14 || i == 15
    | .O => i == 16 || i == 17 || i == 18
    | .S => i == 32 || i == 33 || i == 34 || i == 36
    | .P => i == 31
    | .Na => i == 23
    | .Electron => false

/-- One `(element, isotope-or-natural, count)` entry of a formula. -/
abbrev FormulaEntry := Element × Option Nat × Int

/-- Key order used for the canonical entry order: element first, natural
abundance before specific isotopes. -/
def entryKey (x : FormulaEntry) : Nat × Nat :=
  (x.1.idx, match x.2.1 with | none => 0 | some i => i + 1)

/-- Modelled from the spec: `ElementFormula`, an ordered set of
`(element, isotope-or-natural, integer count)` triples with unique keys,
zero counts pruned, plus one scalar additional-mass term
(`shared/formula.rs` is not part of the sources).  All masses of the
embedding are exact integers in units of 10^-11 dalton, so that every mass
comparison is kernel-decidable. -/
structure MolecularFormula where
  elements : List FormulaEntry
  additional_mass : ℤ
  deriving DecidableEq, Repr

/-- Insert one entry keeping the list sorted by key, merging equal keys and
pruning a resulting zero count. -/
def insertEntry (x : FormulaEntry) : List FormulaEntry → List FormulaEntry
  | [] => if x.2.2 == 0 then [] else [x]
  | y :: ys =>
    if entryKey x == entryKey y then
      if x.2.2 + y.2.2 == 0 then ys else (x.1, x.2.1, x.2.2 + y.2.2) :: ys
    else if (entryKey x).1 < (entryKey y).1 ∨
        ((entryKey x).1 == (entryKey y).1 ∧ (entryKey x).2 < (entryKey y).2) then
      if x.2.2 == 0 then y :: ys else x :: y :: ys
    else
      y :: insertEntry x ys

namespace MolecularFormula

/-- The empty formula. -/
def empty : MolecularFormula := ⟨[], 0⟩

/-- Modelled from the spec: `Self::add`, merging one entry into the
formula; it fails (`false` in the source) when the isotope is not valid
for the element. Here the failure case is surfaced as `none`. -/
def addEntry (f : MolecularFormula) (x : FormulaEntry) : Option MolecularFormula :=
  if x.1.is_valid x.2.1 then
    some ⟨insertEntry x f.elements, f.additional_mass⟩
  else
    none

/-- Build a formula from a list of entries, all assumed valid (the
`molecular_formula!` macro of the source). -/
def ofList (xs : List FormulaEntry) : MolecularFormula :=
  ⟨xs.foldl (fun acc x => insertEntry x acc) [], 0⟩

/-- Modelled from the spec: formula addition merges keys and keeps the
formula normalized. -/
def add (f g : MolecularFormula) : MolecularFormula :=
  ⟨g.elements.foldl (fun acc x => insertEntry x acc) f.elements,
   f.additional_mass + g.additional_mass⟩

/-- Sum of a list of formulas. -/
def sum (fs : List MolecularFormula) : MolecularFormula :=
  fs.foldl add empty

/-- Modelled from the spec: `with_global_isotope_modifications` replaces,
for every `(element, isotope)` override, all occurrences of that element
by the given isotope species; it fails when an override names an isotope
that is invalid for its element. -/
def with_global_isotope_modifications (f : MolecularFormula)
    (global : List (Element × Option Nat)) : Option MolecularFormula :=
  global.foldlM
    (fun acc (ei : Element × Option Nat) =>
      if ei.1.is_valid ei.2 then
        let total : Int := (acc.elements.filter (fun x => x.1 == ei.1)).foldl
          (fun n x => n + x.2.2) 0
        let rest := acc.elements.filter (fun x => x.1 != ei.1)
        some ⟨insertEntry (ei.1, ei.2, total) rest, acc.additional_mass⟩
      else
        none)
    f

end MolecularFormula

/-! ## Modifications, sequence elements and the peptide structure -/

/-- Modelled from the spec: the `ModificationResolver`'s resolved
modification (`modification.rs` is not part of the sources).  The
supported forms needed by the claims are a numeric mass delta (kept
verbatim, e.g. `+12`) and an ontology name resolved against the fixed
table below. -/
inductive Modification where
  | mass (text : List Char)
  | named (name : List Char)
  deriving DecidableEq, Repr

/-- Modelled from the spec: the ontology/modification database collaborator
(`lookup(name_or_id, ontology_scope) -> Option<Modification>`), restricted
to the names exercised by the claims. -/
def namedModTable : List (List Char × MolecularFormula) :=
  [("Phospho".toList, MolecularFormula.ofList [(.H, none, 1), (.P, none, 1), (.O, none, 3)]),
   ("Oxidation".toList, MolecularFormula.ofList [(.O, none, 1)])]

/-- The fixed mass scale: all masses are integers in units of
10^-11 dalton. -/
def massScale : ℤ := 100000000000

/-- Parse the digits (with an optional single decimal dot) of a numeric
mass token into a scaled-integer mass (fractional digits beyond the scale
are truncated; the claims use only small integral shifts). -/
def decimalToScaled (cs : List Char) : ℤ :=
  let whole := cs.takeWhile (fun c => c.isDigit)
  let frac := ((cs.dropWhile (fun c => c.isDigit)).drop 1).take 11
  let fracPadded := frac ++ List.replicate (11 - frac.length) '0'
  let wnum : ℤ := whole.foldl (fun acc c => acc * 10 + ((c.toNat : ℤ) - 48)) 0
  let fnum : ℤ := fracPadded.foldl (fun acc c => acc * 10 + ((c.toNat : ℤ) - 48)) 0
  wnum * massScale + fnum

/-- Modelled from the spec: the chemical contribution of a modification; a
mass-only modification contributes through the scalar additional-mass
term. -/
def Modification.formula : Modification → MolecularFormula
  | .mass text =>
    match text with
    | '-' :: rest => ⟨[], -decimalToScaled rest⟩
    | '+' :: rest => ⟨[], decimalToScaled rest⟩
    | rest => ⟨[], decimalToScaled rest⟩
  | .named n =>
    match namedModTable.find? (fun p => p.1 == n) with
    | some p => p.2
    | none => MolecularFormula.empty

/-- Modelled from the spec: one "possible modification" slot of a
`SequenceElement`: id, source modification, optional localization score
(kept as its literal text) and optional named ambiguity group with the
preferred flag. -/
structure AmbiguousModification where
  id : Nat
  modification : Modification
  localisation_score : Option (List Char)
  group : Option (List Char × Bool)
  deriving DecidableEq, Repr

/-- Modelled from the spec: `SequenceElement` — amino-acid identity (the
letter), definite local modifications, possible modifications and the
optional ambiguous-identity group of a `(?..)` stretch
(`sequence_element.rs` is not part of the sources). -/
structure SequenceElement where
  aminoacid : Char
  modifications : List Modification
  possible_modifications : List AmbiguousModification
  ambiguous : Option Nat
  deriving DecidableEq, Repr

/-- `SequenceElement::new`. -/
def SequenceElement.new (aa : Char) (ambiguous : Option Nat) : SequenceElement :=
  ⟨aa, [], [], ambiguous⟩

/-- Modelled from the spec: the fixed amino-acid enumeration; a character
is a valid amino-acid code when it is one of the canonical letters
(including the ambiguous symbols B/Z and the extended codes). -/
def validAminoAcid (c : Char) : Bool :=
  "ABCDEFGHIKLMNPQRSTUVWYZX".toList.contains c

/-- The embedding of `LinearPeptide` (`rustyms/src/linear_peptide.rs`):
global isotope modifications, labile modifications, terminal
modifications, the sequence, the ambiguous-modification position lists
indexed by id, and the optional charge carriers (never produced by the
embedded parser, kept for structural faithfulness). -/
structure LinearPeptide where
  global : List (Element × Option Nat)
  labile : List Modification
  n_term : Option Modification
  c_term : Option Modification
  sequence : List SequenceElement
  ambiguous_modifications : List (List Nat)
  charge_carriers : Option Unit
  deriving DecidableEq, Repr

namespace LinearPeptide

/-- The empty peptide, `LinearPeptide::default`. -/
def default : LinearPeptide := ⟨[], [], none, none, [], [], none⟩

/-- `LinearPeptide::len`. -/
def len (p : LinearPeptide) : Nat := p.sequence.length

/-- `LinearPeptide::reverse` (`linear_peptide.rs:251-266`): swapped
terminal modifications, reversed sequence, and every ambiguous position
`loc` remapped to `self.len() - loc` (exactly as in the source). -/
def reverse (p : LinearPeptide) : LinearPeptide :=
  { p with
    n_term := p.c_term
    c_term := p.n_term
    sequence := p.sequence.reverse
    ambiguous_modifications :=
      p.ambiguous_modifications.map (fun m => m.map (fun loc => p.len - loc)) }

/-- `LinearPeptide::sub_peptide` (`linear_peptide.rs:867-885`) for a
half-open range `start..stop`: the N-terminal modification is kept iff the
range contains index `0`, the C-terminal one iff it contains
`self.len() - 1`; the rest of the fields (including
`ambiguous_modifications`) are cloned unchanged. -/
def sub_peptide (p : LinearPeptide) (start stop : Nat) : LinearPeptide :=
  { p with
    n_term := if start = 0 ∧ 0 < stop then p.n_term else none
    c_term := if start ≤ p.len - 1 ∧ p.len - 1 < stop then p.c_term else none
    sequence := (p.sequence.drop start).take (stop - start) }

/-- `LinearPeptide::digest` (`linear_peptide.rs:887-901`): cleavage sites
are `0`, the protease's match locations, and `len`; for every enumerated
site `start` the sub-peptides run to each of the next
`max_missed_cleavages + 1` sites **starting at the site itself**
(`sites.iter().skip(index)`), exactly as in the source. -/
def digest (p : LinearPeptide) (locations : List Nat)
    (max_missed_cleavages : Nat) : List LinearPeptide :=
  let sites := 0 :: locations ++ [p.len]
  (List.range sites.length).flatMap
    (fun index =>
      match sites.get? index with
      | none => []
      | some start =>
        ((sites.drop index).take (max_missed_cleavages + 1)).map
          (fun stop => p.sub_peptide start stop))

end LinearPeptide

/-- Modelled from the spec: the protease collaborator
(`match_cleavage_sites(sequence) -> sorted set of indices`) for a protease
that cuts after every residue: every inter-residue boundary
`1, …, len-1`. -/
def cutAfterEveryResidue (seq : List SequenceElement) : List Nat :=
  List.range' 1 (seq.length - 1)

/-! ## The ambiguous-modification invariant (spec section 3) -/

/-- The spec's `LinearPeptide` invariant: every position listed in
`ambiguous_modifications[id]` is a valid index into the sequence whose
element's possible-modifications contain `id` exactly once, and every id
referenced in any possible-modifications list has a corresponding entry in
`ambiguous_modifications`. -/
def validAmbiguous (p : LinearPeptide) : Bool :=
  ((List.range p.ambiguous_modifications.length).all (fun id =>
    ((p.ambiguous_modifications.get? id).getD []).all (fun pos =>
      decide (pos < p.len) &&
      ((((p.sequence.get? pos).getD (SequenceElement.new 'A' none)).possible_modifications.filter
          (fun am => am.id == id)).length == 1)))) &&
  p.sequence.all (fun elem =>
    elem.possible_modifications.all (fun am =>
      decide (am.id < p.ambiguous_modifications.length)))

/-! ## Parse outcomes with explicit panic modelling

The Rust parser indexes byte slices directly (`chars[index]`,
`value[a..b]`); an out-of-range access aborts the process instead of
returning an error.  The embedding makes this third outcome explicit. -/

/-- Result of running a fallible, possibly panicking computation. -/
inductive ParseOutcome (A : Type) where
  | ok (val : A)
  | err (msg : String)
  | panicked
  deriving DecidableEq, Repr

instance : Monad ParseOutcome where
  pure := .ok
  bind x f := match x with
    | .ok v => f v
    | .err m => .err m
    | .panicked => .panicked

/-- `chars[index]` on a byte slice: panics when out of range. -/
def charAt (chars : List Char) (index : Nat) : ParseOutcome Char :=
  match chars.get? index with
  | some c => .ok c
  | none => .panicked

/-- `&value[a..b]` string slicing: panics when `a > b` or `b > len`. -/
def slice (chars : List Char) (a b : Nat) : ParseOutcome (List Char) :=
  if a ≤ b ∧ b ≤ chars.length then .ok ((chars.drop a).take (b - a)) else .panicked

/-! ## The modification resolver (spec section 4.2) -/

/-- `ReturnModification` — a fully defined modification, a "preferred"
ambiguous reference (defines the named group) or a "referenced" ambiguous
reference (refers to the group without redefining it), the latter two
carrying the group id and an optional localization score. -/
inductive ReturnModification where
  | Defined (m : Modification)
  | Preferred (id : Nat) (score : Option (List Char))
  | Referenced (id : Nat) (score : Option (List Char))
  deriving DecidableEq, Repr

/-- The shared ambiguity cross-reference table: per group id, the optional
group name and the optional resolved modification. -/
abbrev AmbiguousLookup := List (Option (List Char) × Option Modification)

/-- True for a well-formed decimal number: at least one digit, digits and
at most one decimal dot. -/
def validDecimal (cs : List Char) : Bool :=
  cs.any (fun c => c.isDigit) &&
  cs.all (fun c => c.isDigit || c == '.') &&
  ((cs.filter (fun c => c == '.')).length ≤ 1)

/-- Modelled from the spec: parsing a fully defined modification token — a
numeric mass delta (`+`number / `-`number) or an ontology-name lookup
against the fixed table; anything else is an error. -/
def parseDefinedMod (tok : List Char) : Except String Modification :=
  match tok with
  | '+' :: rest =>
    if validDecimal rest then .ok (.mass ('+' :: rest)) else .error "invalid mass shift"
  | '-' :: rest =>
    if validDecimal rest then .ok (.mass ('-' :: rest)) else .error "invalid mass shift"
  | _ =>
    if (namedModTable.find? (fun p => p.1 == tok)).isSome then .ok (.named tok)
    else .error "unknown modification"

/-- Split a group tag `label` or `label(score)` into the label and the
optional score text; errors on a malformed score. -/
def splitGroupTag (tag : List Char) : Except String (List Char × Option (List Char)) :=
  let label := tag.takeWhile (fun c => c != '(')
  let rest := tag.dropWhile (fun c => c != '(')
  if label.isEmpty || !label.all (fun c => c.isAlphanum) then
    .error "invalid ambiguity group label"
  else
    match rest with
    | [] => .ok (label, none)
    | '(' :: inner =>
      if inner.getLast? == some ')' && validDecimal (inner.dropLast) then
        .ok (label, some inner.dropLast)
      else .error "invalid localisation score"
    | _ => .error "invalid localisation score"

/-- Look up a group name in the ambiguity table. -/
def findGroup (lookup : AmbiguousLookup) (label : List Char) : Option Nat :=
  (lookup.enum.find? (fun p => p.2.1 == some label)).map (fun p => p.1)

/-- Modelled from the spec: `Modification::try_from` over one bracketed
token.  A token with `#` is an ambiguous reference: with a modification
description before the `#` it defines the named group (an error when the
group already has a definition), without one it merely references it;
other tokens resolve to a fully defined modification. -/
def Modification.try_from (tok : List Char) (lookup : AmbiguousLookup) :
    Except String (ReturnModification × AmbiguousLookup) :=
  if tok.contains '#' then
    let desc := tok.takeWhile (fun c => c != '#')
    let tag := (tok.dropWhile (fun c => c != '#')).drop 1
    match splitGroupTag tag with
    | .error e => .error e
    | .ok (label, score) =>
      if desc.isEmpty then
        match findGroup lookup label with
        | some id => .ok (.Referenced id score, lookup)
        | none => .ok (.Referenced lookup.length score, lookup ++ [(some label, none)])
      else
        match parseDefinedMod desc with
        | .error e => .error e
        | .ok m =>
          match findGroup lookup label with
          | some id =>
            match (lookup.get? id).getD (none, none) with
            | (_, some _) => .error "ambiguity group defined twice"
            | (name, none) =>
              .ok (.Preferred id score, lookup.set id (name, some m))
          | none =>
            .ok (.Preferred lookup.length score, lookup ++ [(some label, some m)])
  else
    match parseDefinedMod tok with
    | .error e => .error e
    | .ok m => .ok (.Defined m, lookup)

/-! ## The Pro Forma parser (`src/complex_peptide.rs:45-270`) -/

/-- `GlobalModification` as constructed by the parser: a fixed modification
on an amino acid, or a global isotope override. -/
inductive GlobalModification where
  | Fixed (aa : Char) (m : Modification)
  | Isotope (el : Element) (iso : Nat)
  deriving DecidableEq, Repr

/-- `Element::try_from(&str)` for the element symbols of the table. -/
def elementFromChars (cs : List Char) : Option Element :=
  if cs == "H".toList then some .H
  else if cs == "C".toList then some .C
  else if cs == "N".toList then some .N
  else if cs == "O".toList then some .O
  else if cs == "S".toList then some .S
  else if cs == "P".toList then some .P
  else if cs == "Na".toList then some .Na
  else none

/-- Digits to a number (`str::parse` on a non-empty digit string). -/
def digitsToNat (cs : List Char) : Nat :=
  cs.foldl (fun acc c => acc * 10 + (c.toNat - 48)) 0

/-- `str::split(',')`: note that splitting the empty string yields one
empty piece. -/
def splitOnComma (cs : List Char) : List (List Char) :=
  match cs with
  | [] => [[]]
  | c :: rest =>
    let r := splitOnComma rest
    if c == ',' then [] :: r
    else
      match r with
      | h :: t => (c :: h) :: t
      | [] => [[c]]

/-- Replace the element at an index (no-op when out of range, matching
indexed assignment into a vector that is known to be in range). -/
def updateAt {A : Type} (l : List A) (i : Nat) (f : A → A) : List A :=
  match l, i with
  | [], _ => []
  | x :: xs, 0 => f x :: xs
  | x :: xs, n + 1 => x :: updateAt xs n f

/-- The mutable local state of `pro_forma_inner`. -/
structure InnerState where
  peptide : LinearPeptide
  c_term : Bool
  ambiguous_aa_counter : Nat
  ambiguous_aa : Option Nat
  ambiguous_lookup : AmbiguousLookup
  ambiguous_found_positions : List (Nat × Bool × Nat × Option (List Char))
  global_modifications : List GlobalModification
  index : Nat
  deriving DecidableEq, Repr

/-- The global-modification loop (`while chars[index] == b'<'`), including
the bitwise-negated bracket check and the `'@'` search over the whole
remaining input, both exactly as written in the source.  The fuel is
always at least the length of the input plus one, which suffices because
every iteration advances the index. -/
def globalLoop (chars : List Char) : Nat → InnerState → ParseOutcome InnerState
  | 0, _ => .panicked
  | fuel + 1, st => do
    let c ← charAt chars st.index
    if c == '<' then
      match (chars.drop st.index).findIdx? (fun c => c == '>') with
      | none => .err "No valid closing delimiter for global modification"
      | some pos =>
        let end_index := st.index + 1 + pos
        match (chars.drop st.index).findIdx? (fun c => c == '@') with
        | some offset => do
          let at_index := st.index + 1 + offset
          let c1 ← charAt chars (st.index + 1)
          let c2 ← charAt chars (at_index - 1)
          if (255 - c1.toNat) % 256 == '['.toNat || (255 - c2.toNat) % 256 == ']'.toNat then
            .err "A global fixed modification should always be enclosed in square brackets"
          else do
            let tok ← slice chars (st.index + 2) (at_index - 2)
            match Modification.try_from tok st.ambiguous_lookup with
            | .error e => .err e
            | .ok (.Defined m, lookup) => do
              let aas ← slice chars at_index (end_index - 1)
              let parts := splitOnComma aas
              let mods ← parts.foldlM
                (fun (acc : List GlobalModification) part =>
                  match part with
                  | [a] =>
                    if validAminoAcid a then
                      ParseOutcome.ok (acc ++ [GlobalModification.Fixed a m])
                    else ParseOutcome.err "Could not read as aminoacid in global modification"
                  | _ => ParseOutcome.err "Could not read as aminoacid in global modification")
                []
              globalLoop chars fuel
                { st with
                  ambiguous_lookup := lookup
                  global_modifications := st.global_modifications ++ mods
                  index := end_index }
            | .ok _ => .err "A global modification cannot be ambiguous"
        | none => do
          let inner ← slice chars (st.index + 1) (end_index - 1)
          if inner == "D".toList then
            globalLoop chars fuel
              { st with
                global_modifications :=
                  st.global_modifications ++ [GlobalModification.Isotope .H 2]
                index := end_index }
          else
            let num := inner.takeWhile (fun c => c.isDigit)
            let el := inner.drop num.length
            match elementFromChars el with
            | none => .err "Could not read as element in global modification"
            | some e =>
              if num.isEmpty then
                .err "Could not read as isotope number in global modification"
              else
                globalLoop chars fuel
                  { st with
                    global_modifications :=
                      st.global_modifications ++
                        [GlobalModification.Isotope e (digitsToNat num)]
                    index := end_index }
    else .ok st

/-- The labile-modification loop (`while chars[index] == b'{'`). -/
def labileLoop (chars : List Char) : Nat → InnerState → ParseOutcome InnerState
  | 0, _ => .panicked
  | fuel + 1, st => do
    let c ← charAt chars st.index
    if c == '{' then
      match (chars.drop st.index).findIdx? (fun c => c == '}') with
      | none => .err "No valid closing delimiter for labile modification"
      | some pos => do
        let end_index := st.index + 1 + pos
        let tok ← slice chars (st.index + 1) (end_index - 1)
        match Modification.try_from tok st.ambiguous_lookup with
        | .error e => .err e
        | .ok (.Defined m, lookup) =>
          labileLoop chars fuel
            { st with
              peptide := { st.peptide with labile := st.peptide.labile ++ [m] }
              ambiguous_lookup := lookup
              index := end_index }
        | .ok _ => .err "A labile modification cannot be ambiguous"
    else .ok st

/-- The N-terminal–modification step (`if chars[index] == b'['`), looking
for the first `]-` before the end of the input. -/
def ntermStep (chars : List Char) (st : InnerState) : ParseOutcome InnerState := do
  let c ← charAt chars st.index
  if c == '[' then
    match (List.range' st.index (chars.length - 1 - st.index)).find?
        (fun i => chars.get? i == some ']' && chars.get? (i + 1) == some '-') with
    | none => .err "No valid closing delimiter for N term modification"
    | some i => do
      let end_index := i + 1
      let tok ← slice chars (st.index + 1) (end_index - 1)
      match Modification.try_from tok st.ambiguous_lookup with
      | .error e => .err e
      | .ok (.Defined m, lookup) =>
        .ok { st with
              peptide := { st.peptide with n_term := some m }
              ambiguous_lookup := lookup
              index := end_index + 1 }
      | .ok _ => .err "A labile modification cannot be ambiguous"
  else .ok st

/-- The main residue loop (`while index < chars.len()`), with the arms in
source order; the `(?` guard reads `chars[index + 1]` before testing the
ambiguity state, the C-terminal branch reads `chars[index]` after the
closing bracket, both of which can run past the end of the input. -/
def mainLoop (chars : List Char) : Nat → InnerState → ParseOutcome InnerState
  | 0, _ => .panicked
  | fuel + 1, st =>
    if h : st.index < chars.length then
      let c := chars.get ⟨st.index, h⟩
      if !st.c_term && c == '(' then do
        let c1 ← charAt chars (st.index + 1)
        if c1 == '?' && st.ambiguous_aa.isNone then
          mainLoop chars fuel
            { st with
              ambiguous_aa := some st.ambiguous_aa_counter
              ambiguous_aa_counter := st.ambiguous_aa_counter + 1
              index := st.index + 2 }
        else
          .err "Invalid Amino Acid code"
      else if !st.c_term && c == ')' && st.ambiguous_aa.isSome then
        mainLoop chars fuel { st with ambiguous_aa := none, index := st.index + 1 }
      else if c == '[' then
        match (chars.drop st.index).findIdx? (fun ch => ch == ']') with
        | none => .err "No valid closing delimiter aminoacid modification"
        | some i =>
          let end_index := st.index + i
          if end_index == 0 then
            .err "No valid closing delimiter aminoacid modification"
          else do
            let tok ← slice chars (st.index + 1) end_index
            match Modification.try_from tok st.ambiguous_lookup with
            | .error e => .err e
            | .ok (ret, lookup) =>
              let st := { st with ambiguous_lookup := lookup, index := end_index + 1 }
              if st.c_term then
                match ret with
                | .Defined m => do
                  let st :=
                    { st with peptide := { st.peptide with c_term := some m } }
                  let c2 ← charAt chars st.index
                  if c2 == '+' then .ok { st with index := st.index + 1 }
                  else .ok st
                | _ => .err "A labile modification cannot be ambiguous"
              else
                match st.peptide.sequence.getLast? with
                | some _ =>
                  let lastIdx := st.peptide.sequence.length - 1
                  match ret with
                  | .Defined m =>
                    mainLoop chars fuel
                      { st with
                        peptide :=
                          { st.peptide with
                            sequence := updateAt st.peptide.sequence lastIdx
                              (fun el =>
                                { el with modifications := el.modifications ++ [m] }) } }
                  | .Preferred id score =>
                    mainLoop chars fuel
                      { st with
                        ambiguous_found_positions :=
                          st.ambiguous_found_positions ++ [(lastIdx, true, id, score)] }
                  | .Referenced id score =>
                    mainLoop chars fuel
                      { st with
                        ambiguous_found_positions :=
                          st.ambiguous_found_positions ++ [(lastIdx, false, id, score)] }
                | none => .err "A modification cannot be placed before any amino acid"
      else if !st.c_term && c == '-' then
        mainLoop chars fuel { st with c_term := true, index := st.index + 1 }
      else if !st.c_term && c == '+' then
        .ok { st with index := st.index + 1 }
      else if !st.c_term then
        if validAminoAcid c then
          mainLoop chars fuel
            { st with
              peptide :=
                { st.peptide with
                  sequence :=
                    st.peptide.sequence ++ [SequenceElement.new c st.ambiguous_aa] }
              index := st.index + 1 }
        else .err "Invalid Amino Acid code"
      else
        .err "A singular hyphen cannot exist"
    else .ok st

/-- The fill-in pass over the deferred ambiguous positions
(`complex_peptide.rs:246-255`): each found `(position, preferred, id,
score)` pushes an `AmbiguousModification` built from the lookup table onto
the sequence element, erroring when the group was never defined. -/
def fillAmbiguous (lookup : AmbiguousLookup)
    (found : List (Nat × Bool × Nat × Option (List Char)))
    (p : LinearPeptide) : ParseOutcome LinearPeptide :=
  found.foldlM
    (fun pep entry =>
      match (lookup.get? entry.2.2.1).getD (none, none) with
      | (_, none) =>
        .err "Ambiguous modification did not have a definition for the actual modification"
      | (name, some m) =>
        .ok { pep with
              sequence := updateAt pep.sequence entry.1
                (fun el =>
                  { el with
                    possible_modifications := el.possible_modifications ++
                      [⟨entry.2.2.1, m, entry.2.2.2, name.map (fun n => (n, entry.2.1))⟩] }) })
    p

/-- `Itertools::group_by` over the id component: groups of consecutive
equal ids, collecting the positions. -/
def groupConsecutive : List (Nat × Nat) → List (Nat × List Nat)
  | [] => []
  | (k, v) :: rest =>
    match groupConsecutive rest with
    | [] => [(k, [v])]
    | (k2, vs) :: t => if k == k2 then (k, v :: vs) :: t else (k, [v]) :: (k2, vs) :: t

/-- The `ambiguous_modifications` construction
(`complex_peptide.rs:256-263`): group consecutive found positions by id,
stably sort the groups by id, and keep the position lists. -/
def buildAmbiguousModifications
    (found : List (Nat × Bool × Nat × Option (List Char))) : List (List Nat) :=
  ((groupConsecutive (found.map (fun e => (e.2.2.1, e.1)))).insertionSort
    (fun x y => x.1 ≤ y.1)).map (fun g => g.2)

/-- `LinearPeptide::apply_global_modifications`: fixed modifications are
pushed onto every matching residue (the placement rules of the modelled
modifications accept every position); a global isotope override is pushed
when valid and aborts the remaining list (returning `false`, which the
parser discards) when not. -/
def apply_global_modifications (p : LinearPeptide) :
    List GlobalModification → LinearPeptide × Bool
  | [] => (p, true)
  | .Fixed aa m :: rest =>
    apply_global_modifications
      { p with
        sequence := p.sequence.map
          (fun el =>
            if el.aminoacid == aa then
              { el with modifications := el.modifications ++ [m] }
            else el) }
      rest
  | .Isotope el iso :: rest =>
    if el.is_valid (some iso) then
      apply_global_modifications { p with global := p.global ++ [(el, some iso)] } rest
    else (p, false)

/-- `ComplexPeptide::pro_forma_inner`: parse one peptide of a (possibly
multimeric) Pro Forma string starting at `start`, returning the peptide
and the index after it.  The final placement-rule validation pass is a
no-op for the modelled modifications (which carry no placement
restrictions). -/
def pro_forma_inner (chars : List Char) (start : Nat) :
    ParseOutcome (LinearPeptide × Nat) :=
  if chars.all (fun c => c == ' ') then .err "Peptide sequence is empty"
  else do
    let st0 : InnerState :=
      { peptide := LinearPeptide.default
        c_term := false
        ambiguous_aa_counter := 0
        ambiguous_aa := none
        ambiguous_lookup := []
        ambiguous_found_positions := []
        global_modifications := []
        index := start }
    let st1 ← globalLoop chars (chars.length + 1) st0
    let st2 ← labileLoop chars (chars.length + 1) st1
    let st3 ← ntermStep chars st2
    let st4 ← mainLoop chars (chars.length + 2) st3
    let filled ← fillAmbiguous st4.ambiguous_lookup st4.ambiguous_found_positions st4.peptide
    let filled :=
      { filled with
        ambiguous_modifications :=
          buildAmbiguousModifications st4.ambiguous_found_positions }
    let applied := (apply_global_modifications filled st4.global_modifications).1
    .ok (applied, st4.index)

/-- `ComplexPeptide`: a single linear peptide or a multimeric list. -/
inductive ComplexPeptide where
  | Singular (p : LinearPeptide)
  | Multimeric (ps : List LinearPeptide)
  deriving DecidableEq, Repr

/-- The multimeric continuation loop of `ComplexPeptide::pro_forma`. -/
def proFormaLoop (chars : List Char) : Nat → List LinearPeptide → Nat →
    ParseOutcome (List LinearPeptide)
  | 0, _, _ => .panicked
  | fuel + 1, acc, start =>
    if start < chars.length then do
      let (p, tail) ← pro_forma_inner chars start
      proFormaLoop chars fuel (acc ++ [p]) tail
    else .ok acc

/-- `ComplexPeptide::pro_forma` (`src/complex_peptide.rs:25-43`). -/
def pro_forma (value : String) : ParseOutcome ComplexPeptide := do
  let chars := value.toList
  let (p, tail) ← pro_forma_inner chars 0
  let peptides ← proFormaLoop chars (chars.length + 1) [p] tail
  if peptides.length > 1 then .ok (.Multimeric peptides)
  else
    match peptides.getLast? with
    | some last => .ok (.Singular last)
    | none => .err "No peptide found"

/-! ## Display (`linear_peptide.rs:921-954`) -/

/-- Modelled from the spec: the display text of a modification — the mass
delta or ontology name it was parsed from. -/
def Modification.display : Modification → List Char
  | .mass t => t
  | .named n => n

/-- Decimal digits of a number. -/
def natToChars (n : Nat) : List Char := (toString n).toList

/-- The element symbol as displayed. -/
def Element.symbol : Element → List Char
  | .H => "H".toList
  | .C => "C".toList
  | .N => "N".toList
  | .O => "O".toList
  | .S => "S".toList
  | .P => "P".toList
  | .Na => "Na".toList
  | .Electron => "e".toList

/-- The optional localization-score suffix `(score)` of an ambiguity tag. -/
def scoreSuffix : Option (List Char) → List Char
  | none => []
  | some s => '(' :: s ++ [')']

/-- Modelled from the spec: `SequenceElement::display`
(`sequence_element.rs` is not part of the sources): closes/opens the
`(?`…`)` ambiguous-identity brackets on group transitions, writes the
amino-acid letter, the definite modifications, and the possible
modifications — with the modification text at the preferred position of a
named group and a bare `#group` reference elsewhere; unnamed possible
modifications print their text at the first position only, tracked through
the `placed` list. -/
def SequenceElement.display (el : SequenceElement) (placed : List Nat)
    (last_ambiguous : Option Nat) : List Char × List Nat :=
  let closing := if last_ambiguous.isSome && last_ambiguous != el.ambiguous
    then [')'] else []
  let opening := if el.ambiguous.isSome && last_ambiguous != el.ambiguous
    then ['(', '?'] else []
  let mods := el.modifications.flatMap (fun m => '[' :: m.display ++ [']'])
  let step := el.possible_modifications.foldl
    (fun (acc : List Char × List Nat) am =>
      match am.group with
      | some (n, true) =>
        (acc.1 ++ '[' :: am.modification.display ++ '#' :: n ++
          scoreSuffix am.localisation_score ++ [']'], acc.2)
      | some (n, false) =>
        (acc.1 ++ '[' :: '#' :: n ++ scoreSuffix am.localisation_score ++ [']'], acc.2)
      | none =>
        if acc.2.contains am.id then (acc.1, acc.2)
        else (acc.1 ++ '[' :: am.modification.display ++ [']'], acc.2 ++ [am.id]))
    ([], placed)
  (closing ++ opening ++ el.aminoacid :: mods ++ step.1, step.2)

/-- `impl Display for LinearPeptide` (`linear_peptide.rs:921-954`): global
isotope modifications, labile modifications, N-terminal modification, the
sequence elements (threading the placed-ids list and the last ambiguity
group), a closing bracket for a trailing ambiguous stretch, and the
C-terminal modification. -/
def LinearPeptide.display (p : LinearPeptide) : List Char :=
  let globals := p.global.flatMap
    (fun ei =>
      '<' :: (match ei.2 with | none => [] | some i => natToChars i) ++
        ei.1.symbol ++ ['>'])
  let labile := p.labile.flatMap (fun m => '{' :: m.display ++ ['}'])
  let nterm := match p.n_term with
    | none => []
    | some m => '[' :: m.display ++ [']', '-']
  let seq := p.sequence.foldl
    (fun (acc : List Char × List Nat × Option Nat) el =>
      let step := el.display acc.2.1 acc.2.2
      (acc.1 ++ step.1, step.2, el.ambiguous))
    ([], [], none)
  let closing := if seq.2.2.isSome then [')'] else []
  let cterm := match p.c_term with
    | none => []
    | some m => '-' :: '[' :: m.display ++ [']']
  globals ++ labile ++ nterm ++ seq.1 ++ closing ++ cterm

/-- Modelled from the spec: the display of a `ComplexPeptide` joins the
multimeric peptides with `+` (the notation that produced them). -/
def ComplexPeptide.display : ComplexPeptide → List Char
  | .Singular p => p.display
  | .Multimeric ps =>
    (ps.map LinearPeptide.display).foldl
      (fun acc s => if acc.isEmpty then s else acc ++ '+' :: s) []

/-! ## Formulas and masses -/

/-- Modelled from the spec: the residue formulas of the amino acids used by
the claims (`aminoacids.rs` is not part of the sources); alanine is
C3H5NO, glycine C2H3NO, cysteine C3H5NOS, tryptophan C11H10N2O. -/
def aaFormula (c : Char) : MolecularFormula :=
  if c == 'A' then .ofList [(.C, none, 3), (.H, none, 5), (.N, none, 1), (.O, none, 1)]
  else if c == 'G' then .ofList [(.C, none, 2), (.H, none, 3), (.N, none, 1), (.O, none, 1)]
  else if c == 'C' then
    .ofList [(.C, none, 3), (.H, none, 5), (.N, none, 1), (.O, none, 1), (.S, none, 1)]
  else if c == 'W' then
    .ofList [(.C, none, 11), (.H, none, 10), (.N, none, 2), (.O, none, 1)]
  else .empty

/-- `LinearPeptide::get_n_term`: a proton-bearing `H` plus the N-terminal
modification's formula. -/
def LinearPeptide.get_n_term (p : LinearPeptide) : MolecularFormula :=
  match p.n_term with
  | none => .ofList [(.H, none, 1)]
  | some m => (MolecularFormula.ofList [(.H, none, 1)]).add m.formula

/-- `LinearPeptide::get_c_term`: `OH` plus the C-terminal modification's
formula. -/
def LinearPeptide.get_c_term (p : LinearPeptide) : MolecularFormula :=
  match p.c_term with
  | none => .ofList [(.H, none, 1), (.O, none, 1)]
  | some m => (MolecularFormula.ofList [(.H, none, 1), (.O, none, 1)]).add m.formula

/-- Modelled from the spec: `SequenceElement::formulas_greedy` — the
residue formula plus its definite modifications, and every
possible modification whose id is not yet placed enters here and marks the
shared placement array (greedy first-eligible-position assignment). -/
def SequenceElement.formulas_greedy (el : SequenceElement) (placed : List Bool) :
    MolecularFormula × List Bool :=
  let base := (aaFormula el.aminoacid).add
    (MolecularFormula.sum (el.modifications.map Modification.formula))
  el.possible_modifications.foldl
    (fun (acc : MolecularFormula × List Bool) am =>
      if acc.2.get? am.id == some false then
        (acc.1.add am.modification.formula, acc.2.set am.id true)
      else acc)
    (base, placed)

/-- `MultiChemical::formulas for LinearPeptide`
(`linear_peptide.rs:904-918`): terminal contributions, the greedy fold over
the sequence, and the global isotope overrides applied last (the source
panics on an invalid override; modelled as `none`).  The modelled sequence
elements contribute a single formula each, so the `Multi` collapses to one
formula. -/
def LinearPeptide.formulas (p : LinearPeptide) : Option MolecularFormula :=
  let init := p.get_n_term.add p.get_c_term
  let folded := p.sequence.foldl
    (fun (acc : MolecularFormula × List Bool) el =>
      let step := el.formulas_greedy acc.2
      (acc.1.add step.1, step.2))
    (init, List.replicate p.ambiguous_modifications.length false)
  folded.1.with_global_isotope_modifications p.global

/-- Modelled from the spec: monoisotopic masses of the element species used
by the claims, as integers in units of 10^-11 dalton. -/
def elementMass (e : Element) (iso : Option Nat) : Option ℤ :=
  match e, iso with
  | .H, none => some 100782503207
  | .H, some 2 => some 201410177780
  | .C, none => some 1200000000000
  | .C, some 13 => some 1300335483800
  | .N, none => some 1400307400480
  | .N, some 15 => some 1500010889820
  | .O, none => some 1599491461960
  | .S, none => some 3197207100000
  | .P, none => some 3097376163000
  | .Na, none => some 2298976928090
  | .Electron, none => some 54857991
  | _, _ => none

/-- `MolecularFormula::monoisotopic_mass`: `none` when any constituent
species lacks tabulated mass data. -/
def MolecularFormula.monoisotopic_mass (f : MolecularFormula) : Option ℤ :=
  (f.elements.foldlM
    (fun acc x => (elementMass x.1 x.2.1).map (fun m => acc + m * x.2.2))
    f.additional_mass)

/-! ## Alignment scoring (`src/align/mass_alignment.rs`) -/

/-- The alignment step classification (`MatchType` of the source). -/
inductive MatchType where
  | FullIdentity | IdentityMassMismatch | Isobaric | Mismatch | Rotation | Gap | Normal
  deriving DecidableEq, Repr

/-- One alignment step: cumulative score, local score, match type and the
numbers of residues consumed on each side. -/
structure Piece where
  score : Int
  localScore : Int
  matchType : MatchType
  step_a : Nat
  step_b : Nat
  deriving DecidableEq, Repr

/-- `Piece::default`. -/
def Piece.default : Piece := ⟨0, 0, .Normal, 0, 0⟩

/-- Modelled from the spec: the scoring constants of `align/scoring.rs`
(not part of the sources) — a negative mismatch score, a negative
mass-mismatch penalty, a positive fixed isobaric score, affine gap
penalties and the block scores. -/
def MISMATCH : Int := -1
/-- Modelled from the spec: the penalty added to an identity match whose
masses disagree. -/
def MASS_MISMATCH_PENALTY : Int := -1
/-- Modelled from the spec: the fixed isobaric-match score. -/
def ISOBARIC : Int := 2
/-- Modelled from the spec: the gap-opening penalty. -/
def GAP_START_PENALTY : Int := -5
/-- Modelled from the spec: the gap-extension penalty. -/
def GAP_EXTEND_PENALTY : Int := -1
/-- Modelled from the spec: the base score of a multi-residue special
match. -/
def BASE_SPECIAL : Int := 1
/-- Modelled from the spec: the per-residue score of a rotated block
match. -/
def ROTATED : Int := 3

/-- Modelled from the spec: the mass tolerance — a parts-per-million
window. -/
structure MassTolerance where
  ppm : ℤ
  deriving DecidableEq, Repr

/-- Modelled from the spec: two masses agree within a ppm tolerance when
their difference, scaled to parts per million of their average, is inside
the window. -/
def MassTolerance.within (t : MassTolerance) (x y : ℤ) : Bool :=
  |x - y| * 1000000 * 2 ≤ t.ppm * (|x| + |y|)

/-- `MassTolerance::any_within`: some pair of the two mass sets agrees. -/
def MassTolerance.any_within (t : MassTolerance) (xs ys : List ℤ) : Bool :=
  xs.any (fun x => ys.any (fun y => t.within x y))

/-- `score_pair` (`mass_alignment.rs:142-180`), scoring a pair of sequence
elements.  The mass comparison is transcribed exactly as written in the
source: `tolerance.any_within(a.1, a.1)` — the first operand's mass set
against itself. -/
def score_pair (a : SequenceElement × List ℤ) (b : SequenceElement × List ℤ)
    (alphabet : Char → Char → Int) (score : Int) (tolerance : MassTolerance) : Piece :=
  match a.1 == b.1, tolerance.any_within a.2 a.2 with
  | true, true =>
    let l := alphabet a.1.aminoacid b.1.aminoacid
    ⟨score + l, l, .FullIdentity, 1, 1⟩
  | true, false =>
    let l := alphabet a.1.aminoacid b.1.aminoacid + MASS_MISMATCH_PENALTY
    ⟨score + l, l, .IdentityMassMismatch, 1, 1⟩
  | false, true => ⟨score + ISOBARIC, ISOBARIC, .Isobaric, 1, 1⟩
  | false, false => ⟨score + MISMATCH, MISMATCH, .Mismatch, 1, 1⟩

/-- Modelled from the spec: the monoisotopic residue masses used in
alignment (computed from the modelled residue formulas). -/
def residueMass (c : Char) : ℤ := ((aaFormula c).monoisotopic_mass).getD 0

/-! ## Multimeric fragment generation (`src/complex_peptide.rs:290-321`) -/

/-- Modelled from the spec: a theoretical fragment, reduced to the data the
merge loop consumes — its mass-over-charge, the peptide it came from, and
its accumulated annotations (`fragment.rs` is not part of the sources). -/
structure Fragment where
  mz : ℤ
  peptide_index : Nat
  annotations : List Nat
  deriving DecidableEq, Repr

/-- Modelled from the spec: `Fragment::ppm` — the difference of the two
mass-over-charge values in parts per million, represented as the exact
fraction (numerator, positive denominator) so that comparisons stay
kernel-decidable. -/
def Fragment.ppm (f g : Fragment) : ℤ × ℤ :=
  (|f.mz - g.mz| * 1000000, g.mz)

/-- Strict comparison of two exact ppm fractions (both denominators
positive in every use). -/
def ppmLt (p q : ℤ × ℤ) : Bool := p.1 * q.2 < q.1 * p.2

/-- Modelled from the spec: the proton mass used for charging fragments
(scaled integer). -/
def protonMass : ℤ := 100727646688

/-- Modelled from the spec: the per-peptide theoretical fragments of an
unmodified peptide under the `dimeric_peptide` test model (one `a` ion
series with `SkipN(1)` and the precursor, max charge 1): the single
backbone `a`-ion of the first residue and the precursor, each tagged and
annotated with the peptide index. -/
def modelFragments (p : LinearPeptide) (peptide_index : Nat) : List Fragment :=
  let aIon :=
    match p.sequence.headD (SequenceElement.new 'A' none) with
    | el =>
      ((p.get_n_term.add (aaFormula el.aminoacid)).add
        (MolecularFormula.ofList [(.C, none, -1), (.O, none, -1)])).monoisotopic_mass
  let prec := p.formulas.bind MolecularFormula.monoisotopic_mass
  [⟨aIon.getD 0 + protonMass, peptide_index, [peptide_index]⟩,
   ⟨prec.getD 0 + protonMass, peptide_index, [peptide_index]⟩]

/-- The merge step of `ComplexPeptide::generate_theoretical_fragments`
(`complex_peptide.rs:300-318`): find the closest existing fragment by ppm
(first minimum wins), merge the annotation into it when the distance is
inside the model tolerance, and append the fragment otherwise. -/
def addFragmentMerge (model_ppm : ℤ) (base : List Fragment) (fragment : Fragment) :
    List Fragment :=
  let best := base.enum.foldl
    (fun (acc : Option Nat × Option (ℤ × ℤ)) iv =>
      let p := fragment.ppm iv.2
      match acc.2 with
      | none => (some iv.1, some p)
      | some cur => if ppmLt p cur then (some iv.1, some p) else acc)
    (none, none)
  match best with
  | (some i, some p) =>
    if p.1 < model_ppm * p.2 then
      updateAt base i
        (fun g => { g with annotations := g.annotations ++ [fragment.annotations.headD 0] })
    else base ++ [fragment]
  | _ => base ++ [fragment]

/-- `ComplexPeptide::generate_theoretical_fragments`
(`complex_peptide.rs:293-321`): every peptide's fragments are generated
with the peptide's index and folded into the growing list through the
ppm-merge step. -/
def ComplexPeptide.generate_theoretical_fragments (c : ComplexPeptide)
    (model_ppm : ℤ) : List Fragment :=
  let peptides := match c with
    | .Singular p => [p]
    | .Multimeric ps => ps
  peptides.enum.foldl
    (fun base ip =>
      (modelFragments ip.2 ip.1).foldl (addFragmentMerge model_ppm) base)
    []

/-! ## The alignment matrix and trace (`src/align/mass_alignment.rs`) -/

/-- Modelled from the spec: the alignment `Type` flag (`align_type.rs` is
not part of the sources) — whether each end of each sequence is free or
anchored; global alignment anchors all four. -/
structure AlignType where
  left_a : Bool
  left_b : Bool
  right_a : Bool
  right_b : Bool
  deriving DecidableEq, Repr

/-- The fully anchored (global) alignment type. -/
def AlignType.global : AlignType := ⟨true, true, true, true⟩

/-- Modelled from the spec: `SequenceElement::formulas_all` — the residue
formula with its definite modifications. -/
def SequenceElement.formulas_all (el : SequenceElement) : MolecularFormula :=
  (aaFormula el.aminoacid).add
    (MolecularFormula.sum (el.modifications.map Modification.formula))

/-- `calculate_masses` (`mass_alignment.rs:223-243`): per block size
`1..=steps` and end index, the summed monoisotopic mass of the window of
that size (`[0]` when the prefix is too short). -/
def calculate_masses (steps : Nat) (seq : List SequenceElement) :
    List (List (List ℤ)) :=
  (List.range' 1 steps).map
    (fun size =>
      (List.range (seq.length + 1)).map
        (fun index =>
          if index < size then [0]
          else
            [((((seq.drop (index - size)).take size).map
                SequenceElement.formulas_all).foldl MolecularFormula.add
                MolecularFormula.empty).monoisotopic_mass.getD 0]))

/-- The remove-first-match loop deciding whether block `b` is a
permutation of block `a` (`mass_alignment.rs:191-198`). -/
def isRotated (a b : List SequenceElement) : Bool :=
  (a.foldl
    (fun (acc : Option (List SequenceElement)) el =>
      match acc with
      | none => none
      | some rest =>
        match rest.findIdx? (fun x => x == el) with
        | some pos => some (rest.eraseIdx pos)
        | none => none)
    (some b)).isSome

/-- `score` (`mass_alignment.rs:184-219`): a block pair is only considered
when the block masses agree within tolerance; a permutation scores
`BASE_SPECIAL + ROTATED·len`, anything else
`BASE_SPECIAL + ISOBARIC·(len_a+len_b)/2`. -/
def scoreBlock (a : List SequenceElement × List ℤ) (b : List SequenceElement × List ℤ)
    (score : Int) (tolerance : MassTolerance) : Option Piece :=
  if tolerance.any_within a.2 b.2 then
    let rotated := a.1.length == b.1.length && isRotated a.1 b.1
    let l : Int :=
      if rotated then BASE_SPECIAL + ROTATED * a.1.length
      else BASE_SPECIAL + ISOBARIC * ((a.1.length : Int) + b.1.length) / 2
    some ⟨score + l, l, if rotated then .Rotation else .Isobaric, a.1.length, b.1.length⟩
  else none

/-- The DP matrix as a nested list, `(len_a+1) × (len_b+1)`. -/
def Matrix := List (List Piece)

/-- `matrix[(i, j)]`, defaulting outside the allocation. -/
def matrixGet (m : Matrix) (i j : Nat) : Piece :=
  ((m.get? i).getD []).getD j Piece.default

/-- Set `matrix[(i, j)]`. -/
def matrixSet (m : Matrix) (i j : Nat) (v : Piece) : Matrix :=
  updateAt m i (fun row => updateAt row j (fun _ => v))

/-- `Matrix::new`. -/
def matrixNew (a b : Nat) : Matrix :=
  List.replicate (a + 1) (List.replicate (b + 1) Piece.default)

/-- The border piece written by `Matrix::global_start` for offset `index`:
accumulated gap-extension score, with steps `(index != 0, 0)` for both
borders, exactly as in the source. -/
def borderPiece (index : Nat) : Piece :=
  ⟨(index : Int) * GAP_EXTEND_PENALTY, GAP_EXTEND_PENALTY, .Gap,
   if index != 0 then 1 else 0, 0⟩

/-- `Matrix::global_start` (`mass_alignment.rs:263-274`): the anchored
border cells become accumulated gap-extension pieces. -/
def globalStart (m : Matrix) (is_a : Bool) (max : Nat) : Matrix :=
  (List.range (max + 1)).foldl
    (fun acc index =>
      matrixSet acc (if is_a then index else 0) (if is_a then 0 else index)
        (borderPiece index))
    m

/-- One candidate edge of a cell (`mass_alignment.rs:47-101`): `none` for
a skipped double gap or a block longer than the available prefix; gap edges
use the affine gap-extension score when the previous step in that
direction was itself a gap. -/
def cellCandidate (steps : Nat) (seq_a seq_b : List SequenceElement)
    (masses_a masses_b : List (List (List ℤ))) (tolerance : MassTolerance)
    (alphabet : Char → Char → Int) (m : Matrix) (index_a index_b : Nat)
    (lens : Nat × Nat) : Option Piece :=
  let len_a := lens.1
  let len_b := lens.2
  if (len_a == 0 && len_b != 1) || (len_a != 1 && len_b == 0) ||
      len_a > index_a || len_b > index_b then
    none
  else
    let base_score := (matrixGet m (index_a - len_a) (index_b - len_b)).score
    if len_a == 0 || len_b == 0 then
      let prev := matrixGet m (index_a - len_a) (index_b - len_b)
      let s := if (prev.step_a == 0 && len_a == 0) ||
          (prev.step_b == 0 && len_b == 0) then
        GAP_EXTEND_PENALTY else GAP_START_PENALTY
      some ⟨base_score + s, s, .Gap, len_a, len_b⟩
    else if len_a == 1 && len_b == 1 then
      some (score_pair
        ((seq_a.getD (index_a - 1) (SequenceElement.new 'A' none)),
          ((masses_a.getD 0 []).getD index_a []))
        ((seq_b.getD (index_b - 1) (SequenceElement.new 'A' none)),
          ((masses_b.getD 0 []).getD index_b []))
        alphabet base_score tolerance)
    else
      scoreBlock
        (((seq_a.drop (index_a - len_a)).take len_a),
          ((masses_a.getD (len_a - 1) []).getD index_a []))
        (((seq_b.drop (index_b - len_b)).take len_b),
          ((masses_b.getD (len_b - 1) []).getD index_b []))
        base_score tolerance

/-- The edge-length enumeration order of the cell loop. -/
def lensList (steps : Nat) : List (Nat × Nat) :=
  (List.range (steps + 1)).flatMap
    (fun len_a => (List.range (steps + 1)).map (fun len_b => (len_a, len_b)))

def cellValues (steps : Nat) (seq_a seq_b : List SequenceElement)
    (masses_a masses_b : List (List (List ℤ))) (tolerance : MassTolerance)
    (alphabet : Char → Char → Int) (m : Matrix) (index_a index_b : Nat) :
    List Piece :=
  (lensList steps).foldl
    (fun values lens =>
      match cellCandidate steps seq_a seq_b masses_a masses_b tolerance alphabet
          m index_a index_b lens with
      | some p => values ++ [p]
      | none => values)
    []

/-- `Iterator::max_by` on the candidate scores: the last maximal element
wins, `Piece::default` when empty. -/
def pickBest (values : List Piece) : Piece :=
  (values.foldl
    (fun (acc : Option Piece) v =>
      match acc with
      | none => some v
      | some a => if v.score ≥ a.score then some v else some a)
    none).getD Piece.default

/-- The matrix-filling loop of `align` (`mass_alignment.rs:45-112`),
row-major, also tracking the best-scoring cell (ties replaced, matching
`value.score >= high.0`). -/
def fillMatrix (steps : Nat) (seq_a seq_b : List SequenceElement)
    (masses_a masses_b : List (List (List ℤ))) (tolerance : MassTolerance)
    (alphabet : Char → Char → Int) (m0 : Matrix) :
    Matrix × (Int × Nat × Nat) :=
  ((List.range' 1 seq_a.length).flatMap
    (fun ia => (List.range' 1 seq_b.length).map (fun ib => (ia, ib)))).foldl
    (fun acc idx =>
      let value := pickBest
        (cellValues steps seq_a seq_b masses_a masses_b tolerance alphabet
          acc.1 idx.1 idx.2)
      let high := if value.score ≥ acc.2.1 then (value.score, idx.1, idx.2) else acc.2
      (matrixSet acc.1 idx.1 idx.2 value, high))
    (m0, (0, 0, 0))

/-- `Matrix::find_end` (`mass_alignment.rs:303-321`). -/
def findEnd (m : Matrix) (a b : Nat) (ty : AlignType) (high : Int × Nat × Nat) :
    Int × Nat × Nat :=
  if ty.right_a && ty.right_b then ((matrixGet m a b).score, a, b)
  else if ty.right_b then
    let best := (List.range (a + 1)).foldl
      (fun (acc : Nat × Int) v =>
        if (matrixGet m v b).score > acc.2 then (v, (matrixGet m v b).score) else acc)
      (0, (matrixGet m 0 b).score)
    (best.2, best.1, b)
  else if ty.right_a then
    let best := (List.range (b + 1)).foldl
      (fun (acc : Nat × Int) v =>
        if (matrixGet m a v).score > acc.2 then (v, (matrixGet m a v).score) else acc)
      (0, (matrixGet m a 0).score)
    (best.2, a, best.1)
  else high

/-- The trace-back loop of `Matrix::trace_path`
(`mass_alignment.rs:286-299`); the fuel is the sum of the coordinates plus
one, which suffices because every kept step consumes at least one residue.
Visited pieces are prepended, which equals the source's push-then-reverse
(the returned path runs start-to-end). -/
def traceLoop (m : Matrix) (ty : AlignType) : Nat → Nat × Nat → List Piece →
    (Nat × Nat) × List Piece
  | 0, pos, path => (pos, path)
  | fuel + 1, pos, path =>
    if (ty.left_a && ty.left_b) || !(pos.1 == 0 && pos.2 == 0) then
      let value := matrixGet m pos.1 pos.2
      if (value.step_a == 0 && value.step_b == 0) ||
          (!ty.left_a && !ty.left_b && value.score < 0) then
        (pos, path)
      else
        traceLoop m ty fuel (pos.1 - value.step_a, pos.2 - value.step_b)
          (value :: path)
    else (pos, path)

/-- `Matrix::trace_path`: locate the end cell, walk back, and reverse the
collected path (the embedding accumulates in walk order, so the final
reversal puts the path start-to-end as the source does). -/
def trace_path (m : Matrix) (a b : Nat) (ty : AlignType)
    (high : Int × Nat × Nat) : Int × Nat × Nat × List Piece :=
  let e := findEnd m a b ty high
  let walked := traceLoop m ty (e.2.1 + e.2.2 + 1) (e.2.1, e.2.2) []
  (e.1, walked.1.1, walked.1.2, walked.2)

/-- The alignment result (`Alignment` of the source); the normalised score
is the exact rational value of the source's floating-point division. -/
structure Alignment where
  absolute_score : Int
  normalised_score : ℚ
  maximal_score : Int
  path : List Piece
  start_a : Nat
  start_b : Nat
  deriving DecidableEq, Repr

/-- `align` (`mass_alignment.rs:18-139`): the `assume_simple` assertion
panics are modelled as `none`; otherwise the matrix is filled, traced, and
the score normalised by the averaged self-similarity of the aligned
regions. -/
def align (steps : Nat) (seq_a seq_b : LinearPeptide)
    (alphabet : Char → Char → Int) (tolerance : MassTolerance) (ty : AlignType) :
    Option Alignment :=
  if seq_a.labile.isEmpty && seq_a.global.isEmpty && seq_a.charge_carriers.isNone &&
      !seq_a.sequence.isEmpty && seq_b.labile.isEmpty && seq_b.global.isEmpty &&
      seq_b.charge_carriers.isNone && !seq_b.sequence.isEmpty && steps ≤ 32 then
    let masses_a := calculate_masses steps seq_a.sequence
    let masses_b := calculate_masses steps seq_b.sequence
    let m0 := matrixNew seq_a.len seq_b.len
    let m1 := if ty.left_a then globalStart m0 true seq_a.len else m0
    let m2 := if ty.left_b then globalStart m1 false seq_b.len else m1
    let filled := fillMatrix steps seq_a.sequence seq_b.sequence masses_a masses_b
      tolerance alphabet m2
    let traced := trace_path filled.1 seq_a.len seq_b.len ty filled.2
    let high_score := traced.1
    let start_a := traced.2.1
    let start_b := traced.2.2.1
    let path := traced.2.2.2
    let lena := (path.map (fun p => p.step_a)).foldl (· + ·) 0
    let lenb := (path.map (fun p => p.step_b)).foldl (· + ·) 0
    let max_score : Int :=
      ((((seq_a.sequence.drop start_a).take lena).map
          (fun el => alphabet el.aminoacid el.aminoacid)).foldl (· + ·) 0 +
        (((seq_b.sequence.drop start_b).take lenb).map
          (fun el => alphabet el.aminoacid el.aminoacid)).foldl (· + ·) 0) / 2
    some
      { absolute_score := high_score
        normalised_score := (high_score : ℚ) / (max_score : ℚ)
        maximal_score := max_score
        path := path
        start_a := start_a
        start_b := start_b }
  else none

/-! ## Concrete inputs used by the claims -/

/-- True when the outcome is a typed error. -/
def ParseOutcome.isErr {A : Type} : ParseOutcome A → Bool
  | .err _ => true
  | _ => false

/-- Modelled from the spec: an identity-favoring substitution matrix
(identity scores high, mismatches the fixed penalty). -/
def idAlphabet : Char → Char → Int :=
  fun a b => if a == b then 8 else MISMATCH

/-- The parse of `A[+12#g0]A[#g0]`. -/
def pepAmbig : LinearPeptide :=
  ⟨[], [], none, none,
   [⟨'A', [], [⟨0, .mass ['+', '1', '2'], none, some (['g', '0'], true)⟩], none⟩,
    ⟨'A', [], [⟨0, .mass ['+', '1', '2'], none, some (['g', '0'], false)⟩], none⟩],
   [[0, 1]], none⟩

/-- The parse of `A[Phospho#g0]A[#g0]`. -/
def pepPhospho : LinearPeptide :=
  ⟨[], [], none, none,
   [⟨'A', [], [⟨0, .named "Phospho".toList, none, some (['g', '0'], true)⟩], none⟩,
    ⟨'A', [], [⟨0, .named "Phospho".toList, none, some (['g', '0'], false)⟩], none⟩],
   [[0, 1]], none⟩

/-- The parse of `<D>A`. -/
def pepD : LinearPeptide :=
  ⟨[(.H, some 2)], [], none, none, [⟨'A', [], [], none⟩], [], none⟩

/-- The parse of `<15N>A`. -/
def pepN15 : LinearPeptide :=
  ⟨[(.N, some 15)], [], none, none, [⟨'A', [], [], none⟩], [], none⟩

/-- The plain two-alanine peptide (the parse of `AA`). -/
def pepAA : LinearPeptide :=
  ⟨[], [], none, none, [⟨'A', [], [], none⟩, ⟨'A', [], [], none⟩], [], none⟩

/-- A two-residue peptide with both terminal modifications, for the
digestion claim. -/
def pepAAterm : LinearPeptide :=
  ⟨[], [], some (.mass ['+', '2']), some (.mass ['+', '3']),
   [⟨'A', [], [], none⟩, ⟨'A', [], [], none⟩], [], none⟩


/-! ## Proof-layer definitions for the alignment analysis -/

/-- Matrix well-formedness: an `(n+1) × (n+1)` allocation. -/
def wfMat (m : Matrix) (n : Nat) : Prop :=
  m.length = n + 1 ∧ ∀ x, (m.getD x []).length = if x < n + 1 then n + 1 else 0

/-- The diagonal potential bounding every cell of a self-alignment with
the identity-favoring matrix: `8·min i j − |i − j|`. -/
def phi (i j : Nat) : Int := 8 * (min i j : Int) - |(i : Int) - (j : Int)|

/-- The expected diagonal piece of a self-alignment at `(i, i)`. -/
def diagPieceAt (i : Nat) : Piece := ⟨8 * (i : Int), 8, .FullIdentity, 1, 1⟩

/-- The value of a formula entry under the element mass table. -/
def entryMass (x : FormulaEntry) : ℤ := (elementMass x.1 x.2.1).getD 0 * x.2.2

/-- The total mass value of a formula (meaningful when every entry has
tabulated mass data). -/
def massValue (f : MolecularFormula) : ℤ :=
  f.additional_mass + (f.elements.map entryMass).foldl (· + ·) 0

/-- Every entry of the formula has tabulated mass data. -/
def massDefined (f : MolecularFormula) : Prop :=
  ∀ x ∈ f.elements, (elementMass x.1 x.2.1).isSome

instance massDefinedDecidable (f : MolecularFormula) : Decidable (massDefined f) :=
  inferInstanceAs (Decidable (∀ x ∈ f.elements, (elementMass x.1 x.2.1).isSome = true))

/-- The summed monoisotopic mass of a window of residues, as used by the
`calculate_masses` table. -/
def windowMass (seq : List SequenceElement) (start len : Nat) : ℤ :=
  ((((seq.drop start).take len).map SequenceElement.formulas_all).foldl
    MolecularFormula.add MolecularFormula.empty).monoisotopic_mass.getD 0

/-- A sequence element is a bare residue of the modelled alphabet. -/
def plainResidue (el : SequenceElement) : Prop :=
  el.modifications = [] ∧
    (el.aminoacid = 'A' ∨ el.aminoacid = 'G' ∨ el.aminoacid = 'C' ∨
      el.aminoacid = 'W')

instance plainResidueDecidable (el : SequenceElement) :
    Decidable (plainResidue el) := by
  unfold plainResidue
  infer_instance

/-- The total entry-mass of a formula entry list. -/
def listMass (l : List FormulaEntry) : ℤ := (l.map entryMass).foldl (· + ·) 0

/-- Every entry of the list has tabulated mass data. -/
def listMassDefined (l : List FormulaEntry) : Prop :=
  ∀ x ∈ l, (elementMass x.1 x.2.1).isSome

/-- The invariant satisfied by every processed cell of the self-alignment
matrix: its score is bounded by the potential, and diagonal cells hold
exactly the full-identity piece. -/
def Qcell (i j : Nat) (p : Piece) : Prop :=
  p.score ≤ phi i j ∧ (i = j → p = diagPieceAt i)

/-- The invariant of the row-major matrix-filling fold: the matrix is
well-formed, borders hold the anchored gap pieces, and every already
processed interior cell (lexicographically before `(i, j)`) satisfies the
cell invariant. -/
def fillInv (n : Nat) (M : Matrix) (i j : Nat) : Prop :=
  wfMat M n ∧
  (∀ y : Nat, y ≤ n → matrixGet M 0 y = borderPiece y) ∧
  (∀ x : Nat, x ≤ n → matrixGet M x 0 = borderPiece x) ∧
  (∀ x y : Nat, 1 ≤ x → x ≤ n → 1 ≤ y → y ≤ n →
    (x < i ∨ (x = i ∧ y < j)) → Qcell x y (matrixGet M x y))

/-! ## Theorems -/

/-- Auxiliary: double complement of positions bounded by `n`. -/
theorem sub_sub_list (n : Nat) (m : List Nat) (h : ∀ x ∈ m, x ≤ n) :
    (m.map (fun loc => n - loc)).map (fun loc => n - loc) = m := by
  induction m with
  | nil => rfl
  | cons a t ih =>
    simp only [List.map_cons, List.cons.injEq]
    exact ⟨Nat.sub_sub_self (h a (List.mem_cons_self a t)),
      ih (fun x hx => h x (List.mem_cons_of_mem a hx))⟩

/-- Auxiliary: the same, mapped over the list of position lists. -/
theorem sub_sub_lists (n : Nat) (amb : List (List Nat))
    (h : ∀ m ∈ amb, ∀ x ∈ m, x ≤ n) :
    ((amb.map (fun m => m.map (fun loc => n - loc))).map
      (fun m => m.map (fun loc => n - loc))) = amb := by
  induction amb with
  | nil => rfl
  | cons a t ih =>
    simp only [List.map_cons, List.cons.injEq]
    exact ⟨sub_sub_list n a (h a (List.mem_cons_self a t)),
      ih (fun m hm => h m (List.mem_cons_of_mem a hm))⟩

/-- C10: `LinearPeptide::reverse` is an involution — reversing twice
restores the sequence order, the swapped terminal modifications and the
remapped ambiguous-modification position lists (for any peptide whose
listed positions do not exceed its length, which every `usize`-indexed
peptide of the source satisfies without overflow). -/
theorem reverse_involution (p : LinearPeptide)
    (h : ∀ m ∈ p.ambiguous_modifications, ∀ loc ∈ m, loc ≤ p.len) :
    p.reverse.reverse = p := by
  cases p with
  | mk g l nt ct seq amb cc =>
    simp only [LinearPeptide.reverse, LinearPeptide.len, List.length_reverse,
      List.reverse_reverse]
    simp only [LinearPeptide.len, LinearPeptide.mk.injEq] at *
    exact ⟨trivial, trivial, trivial, trivial, trivial,
      sub_sub_lists seq.length amb h, trivial⟩

/-- Witness for C10 at the parsed `A[+12#g0]A[#g0]` peptide. -/
theorem reverse_involution_witness : pepAmbig.reverse.reverse = pepAmbig :=
  reverse_involution pepAmbig (by decide)

/-- C3 (code bug): digesting the two-residue peptide with both terminal
modifications using a protease that cuts after every residue and zero
missed cleavages yields three empty sub-peptides without terminal
modifications — not two length-1 sub-peptides inheriting the terminal
modifications — because the inner loop of `digest` starts its end-site
iteration at the start site itself (`sites.iter().skip(index)`). -/
theorem digest_cut_all_empty :
    (pepAAterm.digest (cutAfterEveryResidue pepAAterm.sequence) 0).map
        (fun q => (q.len, q.n_term.isSome, q.c_term.isSome)) =
      [(0, false, false), (0, false, false), (0, false, false)] := by decide

/-- C4 (code bug): the parser panics instead of returning a typed error —
on `AA-[+2]` it indexes one past the end of the input after the C-terminal
modification (`chars[index]` at `complex_peptide.rs:201`), and on `A(` the
`(?` guard reads `chars[index + 1]` past the end. -/
theorem pro_forma_panics :
    pro_forma "AA-[+2]" = .panicked ∧ pro_forma "A(" = .panicked := by decide

/-- C5 (code bug): parsing `A[+12#g0]A[#g0]` establishes the
ambiguous-modification invariant, but `reverse` breaks it — the position
list `[0, 1]` is remapped to `self.len() - loc = [2, 1]`, and position `2`
is outside the two-residue sequence (the correct remap is
`len - 1 - loc`). -/
theorem reverse_breaks_ambiguous_invariant :
    pro_forma "A[+12#g0]A[#g0]" = .ok (.Singular pepAmbig) ∧
      validAmbiguous pepAmbig = true ∧
      pepAmbig.reverse.ambiguous_modifications = [[2, 1]] ∧
      validAmbiguous pepAmbig.reverse = false := by decide

/-- C6 (code bug): `score_pair` compares the first residue's mass set
against itself (`tolerance.any_within(a.1, a.1)` at
`mass_alignment.rs:149`), so a glycine/tryptophan pair — different amino
acids whose masses differ far beyond the 10 ppm tolerance — is classified
as an isobaric match with the fixed isobaric score, when the claim's
comparison of a's masses against b's would make it a mismatch. -/
theorem score_pair_ignores_b_masses :
    score_pair (SequenceElement.new 'G' none, [residueMass 'G'])
        (SequenceElement.new 'W' none, [residueMass 'W']) idAlphabet 0 ⟨10⟩ =
      ⟨ISOBARIC, ISOBARIC, .Isobaric, 1, 1⟩ ∧
    MassTolerance.any_within ⟨10⟩ [residueMass 'G'] [residueMass 'W'] = false := by
  decide

/-- C8: `<D>A` parses with the global `H → 2H` override and its full
formula is `[2H]7 C3 N1 O2` (all seven hydrogens as deuterium), and
`<15N>A` gives `H7 C3 [15N]1 O2`. -/
theorem global_isotope_formulas :
    pro_forma "<D>A" = .ok (.Singular pepD) ∧
      pepD.formulas =
        some ⟨[(.H, some 2, 7), (.C, none, 3), (.N, none, 1), (.O, none, 2)], 0⟩ ∧
      pro_forma "<15N>A" = .ok (.Singular pepN15) ∧
      pepN15.formulas =
        some ⟨[(.H, none, 7), (.C, none, 3), (.N, some 15, 1), (.O, none, 2)], 0⟩ := by
  decide

/-- C9: `A[Phospho#g0]A[#g0]` parses with exactly one
possible-modification entry on each residue and exactly one ambiguity
group; referencing `#g0` twice without a definition errors, and defining
`Phospho#g0` twice errors. -/
theorem ambiguous_group_bookkeeping :
    pro_forma "A[Phospho#g0]A[#g0]" = .ok (.Singular pepPhospho) ∧
      pepPhospho.sequence.map (fun el => el.possible_modifications.length) = [1, 1] ∧
      pepPhospho.ambiguous_modifications = [[0, 1]] ∧
      (pro_forma "A[#g0]A[#g0]").isErr = true ∧
      (pro_forma "A[Phospho#g0]A[Phospho#g0]").isErr = true := by decide

/-- C2 (counterexample): `AA+AA` parses to the two identical peptides, but
`ComplexPeptide::generate_theoretical_fragments` does not emit four
separate fragments: its ppm-merge loop combines the identical fragments of
the second occurrence into those of the first, leaving two. -/
theorem dimeric_identical_not_four :
    pro_forma "AA+AA" = .ok (.Multimeric [pepAA, pepAA]) ∧
      ((ComplexPeptide.Multimeric [pepAA, pepAA]).generate_theoretical_fragments
          20).length ≠ 4 := by decide

/-- C2 (amended): for `AA+AA` under the single-`a`-series model with 20 ppm
tolerance, the fragment generator itself merges the identical fragments of
the two occurrences by nearest-ppm clustering: the four per-occurrence
fragments collapse to two, each annotated with both peptide occurrences. -/
theorem dimeric_identical_merged :
    (modelFragments pepAA 0 ++ modelFragments pepAA 1).length = 4 ∧
      ((ComplexPeptide.Multimeric [pepAA, pepAA]).generate_theoretical_fragments
          20).map (fun f => f.annotations) = [[0, 1], [0, 1]] := by decide

/-- C1 (counterexample): `"-"` is accepted by the parser — it parses to the
empty default peptide — but its displayed form is the empty string, which
the parser rejects, so re-parsing the displayed form does not succeed. -/
theorem roundtrip_fails_on_hyphen :
    pro_forma "-" = .ok (.Singular LinearPeptide.default) ∧
      ComplexPeptide.display (.Singular LinearPeptide.default) = [] ∧
      (pro_forma "").isErr = true := by decide

/-! ### Matrix access lemmas -/

theorem updateAt_length {A : Type} (l : List A) (i : Nat) (f : A → A) :
    (updateAt l i f).length = l.length := by
  induction l generalizing i with
  | nil => simp [updateAt]
  | cons x xs ih => cases i with
    | zero => simp [updateAt]
    | succ n => simp [updateAt, ih]

theorem updateAt_getD {A : Type} (l : List A) (i j : Nat) (f : A → A) (d : A) :
    (updateAt l i f).getD j d =
      if j = i ∧ j < l.length then f (l.getD j d) else l.getD j d := by
  induction l generalizing i j with
  | nil => simp [updateAt]
  | cons x xs ih =>
    cases i with
    | zero => cases j with
      | zero => simp [updateAt]
      | succ m => simp [updateAt]
    | succ n => cases j with
      | zero => simp [updateAt]
      | succ m =>
        simp only [updateAt, List.getD_cons_succ, ih n m, List.length_cons]
        by_cases h1 : m = n
        · by_cases h2 : m < xs.length
          · rw [if_pos ⟨h1, h2⟩, if_pos ⟨by omega, by omega⟩]
          · rw [if_neg (by omega), if_neg (by omega)]
        · rw [if_neg (by omega), if_neg (by omega)]

theorem repl_getD {A : Type} (n j : Nat) (x : A) (d : A) :
    (List.replicate n x).getD j d = if j < n then x else d := by
  by_cases h : j < n
  · have hl : j < (List.replicate n x).length := by simpa using h
    rw [List.getD_eq_getElem _ _ hl]
    simp [h]
  · have hl : (List.replicate n x).length ≤ j := by simpa using Nat.le_of_not_lt h
    rw [List.getD_eq_default _ _ hl]
    simp [h]

theorem matrixGet_getD (m : Matrix) (i j : Nat) :
    matrixGet m i j = (m.getD i []).getD j Piece.default := by
  simp [matrixGet, List.getD_eq_getD_get?]

theorem matrixSet_length (m : Matrix) (i j : Nat) (v : Piece) :
    (matrixSet m i j v).length = m.length := updateAt_length m i _

theorem matrixSet_getD (m : Matrix) (i j x : Nat) (v : Piece) :
    (matrixSet m i j v).getD x [] =
      if x = i ∧ x < m.length then updateAt (m.getD x []) j (fun _ => v)
      else m.getD x [] := by
  unfold matrixSet
  rw [updateAt_getD]

theorem wfMat_new (n : Nat) : wfMat (matrixNew n n) n := by
  constructor
  · simp [matrixNew]
  · intro x
    unfold matrixNew
    rw [repl_getD]
    by_cases h : x < n + 1 <;> simp [h]

theorem wfMat_set (m : Matrix) (n i j : Nat) (v : Piece) (hm : wfMat m n) :
    wfMat (matrixSet m i j v) n := by
  obtain ⟨h1, h2⟩ := hm
  refine ⟨by rw [matrixSet_length, h1], ?_⟩
  intro x
  rw [matrixSet_getD]
  by_cases hx : x = i ∧ x < m.length
  · rw [if_pos hx, updateAt_length]
    exact h2 x
  · rw [if_neg hx]
    exact h2 x

theorem matrixGet_set (m : Matrix) (n i j x y : Nat) (v : Piece) (hm : wfMat m n)
    (hi : i ≤ n) (hj : j ≤ n) :
    matrixGet (matrixSet m i j v) x y =
      if x = i ∧ y = j then v else matrixGet m x y := by
  obtain ⟨h1, h2⟩ := hm
  rw [matrixGet_getD, matrixGet_getD, matrixSet_getD]
  by_cases hx : x = i
  · have hxlt : x < m.length := by omega
    rw [if_pos ⟨hx, hxlt⟩, updateAt_getD]
    have hrlen : (m.getD x []).length = n + 1 := by
      have := h2 x
      rw [if_pos (by omega)] at this
      exact this
    by_cases hy : y = j
    · rw [if_pos ⟨hy, by omega⟩, if_pos ⟨hx, hy⟩]
    · rw [if_neg (by simp [hy]), if_neg (by simp [hy])]
  · rw [if_neg (by simp [hx]), if_neg (by simp [hx])]

theorem matrixGet_new (a b x y : Nat) :
    matrixGet (matrixNew a b) x y = Piece.default := by
  rw [matrixGet_getD]
  unfold matrixNew
  rw [repl_getD]
  by_cases h : x < a + 1
  · rw [if_pos h, repl_getD]
    by_cases h2 : y < b + 1 <;> simp [h2]
  · simp [h]

/-! ### Border initialization lemmas -/

theorem wfMat_foldl {B : Type} (n : Nat) (f : Matrix → B → Matrix)
    (hf : ∀ m b, wfMat m n → wfMat (f m b) n) (l : List B) (m : Matrix)
    (hm : wfMat m n) : wfMat (l.foldl f m) n := by
  induction l generalizing m with
  | nil => exact hm
  | cons b t ih => exact ih (f m b) (hf m b hm)

theorem wfMat_globalStart (m : Matrix) (n mx : Nat) (is_a : Bool)
    (hm : wfMat m n) : wfMat (globalStart m is_a mx) n := by
  unfold globalStart
  exact wfMat_foldl n _ (fun m b hm2 => wfMat_set _ n _ _ _ hm2) _ m hm

theorem range_one_eq : List.range 1 = [0] := rfl

theorem globalStart_get_a (m : Matrix) (n mx : Nat) (x y : Nat)
    (hm : wfMat m n) (hmx : mx ≤ n) :
    matrixGet (globalStart m true mx) x y =
      if y = 0 ∧ x ≤ mx then borderPiece x else matrixGet m x y := by
  induction mx with
  | zero =>
    unfold globalStart
    rw [range_one_eq]
    simp only [List.foldl_cons, List.foldl_nil, if_true]
    rw [matrixGet_set m n _ _ x y _ hm (by omega) (by omega)]
    by_cases hc : y = 0 ∧ x ≤ 0
    · rw [if_pos ⟨by omega, hc.1⟩, if_pos hc]
      have : x = 0 := by omega
      simp [this]
    · rw [if_neg (by omega), if_neg hc]
  | succ k ih =>
    unfold globalStart
    rw [List.range_succ, List.foldl_append]
    simp only [List.foldl_cons, List.foldl_nil, if_true]
    have hwf : wfMat (globalStart m true k) n := wfMat_globalStart m n k true hm
    unfold globalStart at hwf
    simp only [if_true] at hwf
    rw [matrixGet_set _ n (k + 1) 0 x y _ hwf (by omega) (by omega)]
    have ih2 := ih (by omega)
    unfold globalStart at ih2
    simp only [if_true] at ih2
    by_cases hc : x = k + 1 ∧ y = 0
    · rw [if_pos hc, if_pos ⟨hc.2, by omega⟩, hc.1]
    · rw [if_neg hc, ih2]
      by_cases hc2 : y = 0 ∧ x ≤ k
      · rw [if_pos hc2, if_pos ⟨hc2.1, by omega⟩]
      · rw [if_neg hc2, if_neg (by omega)]

theorem globalStart_get_b (m : Matrix) (n mx : Nat) (x y : Nat)
    (hm : wfMat m n) (hmx : mx ≤ n) :
    matrixGet (globalStart m false mx) x y =
      if x = 0 ∧ y ≤ mx then borderPiece y else matrixGet m x y := by
  induction mx with
  | zero =>
    unfold globalStart
    rw [range_one_eq]
    simp only [List.foldl_cons, List.foldl_nil, if_false, Bool.false_eq_true]
    rw [matrixGet_set m n _ _ x y _ hm (by omega) (by omega)]
    by_cases hc : x = 0 ∧ y ≤ 0
    · rw [if_pos ⟨hc.1, by omega⟩, if_pos hc]
      have : y = 0 := by omega
      simp [this]
    · rw [if_neg (by omega), if_neg hc]
  | succ k ih =>
    unfold globalStart
    rw [List.range_succ, List.foldl_append]
    simp only [List.foldl_cons, List.foldl_nil, if_false, Bool.false_eq_true]
    have hwf : wfMat (globalStart m false k) n := wfMat_globalStart m n k false hm
    unfold globalStart at hwf
    simp only [if_false, Bool.false_eq_true] at hwf
    rw [matrixGet_set _ n 0 (k + 1) x y _ hwf (by omega) (by omega)]
    have ih2 := ih (by omega)
    unfold globalStart at ih2
    simp only [if_false, Bool.false_eq_true] at ih2
    by_cases hc : x = 0 ∧ y = k + 1
    · rw [if_pos hc, if_pos ⟨hc.1, by omega⟩, hc.2]
    · rw [if_neg hc, ih2]
      by_cases hc2 : x = 0 ∧ y ≤ k
      · rw [if_pos hc2, if_pos ⟨hc2.1, by omega⟩]
      · rw [if_neg hc2, if_neg (by omega)]

theorem m2_get (n x y : Nat) :
    matrixGet (globalStart (globalStart (matrixNew n n) true n) false n) x y =
      if x = 0 ∧ y ≤ n then borderPiece y
      else if y = 0 ∧ x ≤ n then borderPiece x
      else Piece.default := by
  rw [globalStart_get_b _ n n x y
      (wfMat_globalStart _ n n true (wfMat_new n)) (le_refl n)]
  by_cases hc : x = 0 ∧ y ≤ n
  · rw [if_pos hc, if_pos hc]
  · rw [if_neg hc, if_neg hc,
      globalStart_get_a _ n n x y (wfMat_new n) (le_refl n)]
    by_cases hc2 : y = 0 ∧ x ≤ n
    · rw [if_pos hc2, if_pos hc2]
    · rw [if_neg hc2, if_neg hc2, matrixGet_new]

/-! ### Formula mass additivity -/

theorem elidx_inj : ∀ e1 e2 : Element, e1.idx = e2.idx → e1 = e2 := by
  intro e1 e2 h
  cases e1 <;> cases e2 <;> simp_all [Element.idx]

theorem entryKey_inj (x y : FormulaEntry) (h : entryKey x = entryKey y) :
    x.1 = y.1 ∧ x.2.1 = y.2.1 := by
  unfold entryKey at h
  obtain ⟨h1, h2⟩ := Prod.mk.injEq .. ▸ h
  refine ⟨elidx_inj _ _ h1, ?_⟩
  cases hx : x.2.1 <;> cases hy : y.2.1 <;> rw [hx, hy] at h2 <;> simp_all

theorem foldl_add_shift (l : List ℤ) (a : ℤ) :
    l.foldl (· + ·) a = a + l.foldl (· + ·) 0 := by
  induction l generalizing a with
  | nil => simp
  | cons x t ih =>
    simp only [List.foldl_cons]
    rw [ih (a + x), ih (0 + x)]
    omega

theorem listMass_cons (x : FormulaEntry) (l : List FormulaEntry) :
    listMass (x :: l) = entryMass x + listMass l := by
  unfold listMass
  simp only [List.map_cons, List.foldl_cons, zero_add]
  rw [foldl_add_shift]

theorem entryMass_zero (x : FormulaEntry) (h : x.2.2 = 0) : entryMass x = 0 := by
  unfold entryMass
  rw [h, mul_zero]

theorem listMass_insertEntry (x : FormulaEntry) (l : List FormulaEntry) :
    listMass (insertEntry x l) = entryMass x + listMass l := by
  induction l with
  | nil =>
    unfold insertEntry
    by_cases h : x.2.2 == 0
    · rw [if_pos h, entryMass_zero x (by simpa using h)]
      simp [listMass]
    · rw [if_neg h, listMass_cons]
  | cons y ys ih =>
    unfold insertEntry
    by_cases hk : entryKey x == entryKey y
    · rw [if_pos hk]
      obtain ⟨he, hi⟩ := entryKey_inj x y (by simpa using hk)
      by_cases hz : x.2.2 + y.2.2 == 0
      · rw [if_pos hz, listMass_cons]
        have : entryMass x + entryMass y = 0 := by
          unfold entryMass
          rw [he, hi, ← mul_add]
          simp only [beq_iff_eq] at hz
          rw [hz, mul_zero]
        omega
      · rw [if_neg hz, listMass_cons, listMass_cons]
        have : entryMass (x.1, x.2.1, x.2.2 + y.2.2) = entryMass x + entryMass y := by
          unfold entryMass
          simp only
          rw [he, hi, mul_add]
        omega
    · rw [if_neg hk]
      by_cases hlt : (entryKey x).1 < (entryKey y).1 ∨
          ((entryKey x).1 == (entryKey y).1 ∧ (entryKey x).2 < (entryKey y).2)
      · rw [if_pos hlt]
        by_cases hz : x.2.2 == 0
        · rw [if_pos hz, entryMass_zero x (by simpa using hz)]
          omega
        · rw [if_neg hz, listMass_cons]
      · rw [if_neg hlt, listMass_cons, listMass_cons, ih]
        omega

theorem listMassDefined_insertEntry (x : FormulaEntry) (l : List FormulaEntry)
    (hx : (elementMass x.1 x.2.1).isSome) (hl : listMassDefined l) :
    listMassDefined (insertEntry x l) := by
  induction l with
  | nil =>
    unfold insertEntry
    intro e he
    by_cases h : x.2.2 == 0
    · rw [if_pos h] at he
      simp at he
    · rw [if_neg h] at he
      simp only [List.mem_singleton] at he
      subst he
      exact hx
  | cons y ys ih =>
    unfold insertEntry
    intro e he
    have hys : listMassDefined ys := fun a ha => hl a (List.mem_cons_of_mem y ha)
    have hy : (elementMass y.1 y.2.1).isSome := hl y (List.mem_cons_self y ys)
    by_cases hk : entryKey x == entryKey y
    · rw [if_pos hk] at he
      by_cases hz : x.2.2 + y.2.2 == 0
      · rw [if_pos hz] at he
        exact hys e he
      · rw [if_neg hz] at he
        rcases List.mem_cons.mp he with h | h
        · subst h
          exact hx
        · exact hys e h
    · rw [if_neg hk] at he
      by_cases hlt : (entryKey x).1 < (entryKey y).1 ∨
          ((entryKey x).1 == (entryKey y).1 ∧ (entryKey x).2 < (entryKey y).2)
      · rw [if_pos hlt] at he
        by_cases hz : x.2.2 == 0
        · rw [if_pos hz] at he
          exact hl e he
        · rw [if_neg hz] at he
          rcases List.mem_cons.mp he with h | h
          · subst h; exact hx
          · exact hl e h
      · rw [if_neg hlt] at he
        rcases List.mem_cons.mp he with h | h
        · subst h; exact hy
        · exact ih hys e h

theorem monoisotopic_eq_massValue (f : MolecularFormula) (h : massDefined f) :
    f.monoisotopic_mass = some (massValue f) := by
  obtain ⟨els, am⟩ := f
  unfold massDefined at h
  simp only at h
  unfold MolecularFormula.monoisotopic_mass massValue
  simp only
  have : ∀ (l : List FormulaEntry) (acc : ℤ), (∀ x ∈ l, (elementMass x.1 x.2.1).isSome) →
      l.foldlM (fun acc x => (elementMass x.1 x.2.1).map (fun m => acc + m * x.2.2)) acc =
        some (acc + listMass l) := by
    intro l
    induction l with
    | nil => intro acc _; simp [listMass]
    | cons e t ih =>
      intro acc hdef
      have he := hdef e (List.mem_cons_self e t)
      obtain ⟨m, hm⟩ := Option.isSome_iff_exists.mp he
      simp only [List.foldlM_cons, hm, Option.map_some', Option.bind_eq_bind,
        Option.some_bind]
      rw [ih (acc + m * e.2.2) (fun x hx => hdef x (List.mem_cons_of_mem e hx)),
        listMass_cons]
      congr 1
      unfold entryMass
      rw [hm]
      simp only [Option.getD_some]
      omega
  rw [this els am h]
  rfl

theorem massValue_add (f g : MolecularFormula) :
    massValue (f.add g) = massValue f + massValue g := by
  obtain ⟨ef, af⟩ := f
  obtain ⟨eg, ag⟩ := g
  unfold MolecularFormula.add massValue
  simp only
  have : ∀ (xs acc : List FormulaEntry),
      listMass (xs.foldl (fun acc x => insertEntry x acc) acc) =
        listMass acc + listMass xs := by
    intro xs
    induction xs with
    | nil => intro acc; simp [listMass]
    | cons x t ih =>
      intro acc
      simp only [List.foldl_cons]
      rw [ih (insertEntry x acc), listMass_insertEntry, listMass_cons]
      omega
  show af + ag + listMass (eg.foldl (fun acc x => insertEntry x acc) ef) = _
  rw [this eg ef]
  show _ = af + listMass ef + (ag + listMass eg)
  omega

theorem massDefined_add (f g : MolecularFormula) (hf : massDefined f)
    (hg : massDefined g) : massDefined (f.add g) := by
  obtain ⟨ef, af⟩ := f
  obtain ⟨eg, ag⟩ := g
  unfold massDefined at *
  simp only at *
  have : ∀ (xs acc : List FormulaEntry), listMassDefined acc →
      (∀ x ∈ xs, (elementMass x.1 x.2.1).isSome) →
      listMassDefined (xs.foldl (fun acc x => insertEntry x acc) acc) := by
    intro xs
    induction xs with
    | nil => intro acc ha _; exact ha
    | cons x t ih =>
      intro acc ha hx
      simp only [List.foldl_cons]
      exact ih (insertEntry x acc)
        (listMassDefined_insertEntry x acc (hx x (List.mem_cons_self x t)) ha)
        (fun e he => hx e (List.mem_cons_of_mem x he))
  exact this eg ef hf hg

/-! ### Window mass bounds -/

theorem massDefined_aaFormula (c : Char) : massDefined (aaFormula c) := by
  unfold aaFormula
  by_cases h1 : c == 'A'
  · rw [if_pos h1]; decide
  · rw [if_neg h1]
    by_cases h2 : c == 'G'
    · rw [if_pos h2]; decide
    · rw [if_neg h2]
      by_cases h3 : c == 'C'
      · rw [if_pos h3]; decide
      · rw [if_neg h3]
        by_cases h4 : c == 'W'
        · rw [if_pos h4]; decide
        · rw [if_neg h4]; decide

theorem residueMass_eq (c : Char) : residueMass c = massValue (aaFormula c) := by
  unfold residueMass
  rw [monoisotopic_eq_massValue _ (massDefined_aaFormula c)]
  rfl

theorem formulas_all_plain (el : SequenceElement) (h : el.modifications = []) :
    massValue el.formulas_all = massValue (aaFormula el.aminoacid) ∧
      massDefined el.formulas_all := by
  unfold SequenceElement.formulas_all
  rw [h]
  constructor
  · rw [massValue_add]
    have : massValue (MolecularFormula.sum (List.map Modification.formula [])) = 0 := by
      decide
    rw [this, add_zero]
  · exact massDefined_add _ _ (massDefined_aaFormula _) (by decide)

theorem massValue_foldl_add (l : List MolecularFormula) (acc : MolecularFormula) :
    massValue (l.foldl MolecularFormula.add acc) =
      massValue acc + (l.map massValue).foldl (· + ·) 0 := by
  induction l generalizing acc with
  | nil => simp
  | cons f t ih =>
    simp only [List.foldl_cons, List.map_cons]
    rw [ih (acc.add f), massValue_add,
      foldl_add_shift (t.map massValue) (0 + massValue f)]
    omega

theorem massDefined_foldl_add (l : List MolecularFormula) (acc : MolecularFormula)
    (ha : massDefined acc) (hl : ∀ f ∈ l, massDefined f) :
    massDefined (l.foldl MolecularFormula.add acc) := by
  induction l generalizing acc with
  | nil => exact ha
  | cons f t ih =>
    simp only [List.foldl_cons]
    exact ih (acc.add f)
      (massDefined_add _ _ ha (hl f (List.mem_cons_self f t)))
      (fun g hg => hl g (List.mem_cons_of_mem f hg))

theorem sum_bounds (l : List ℤ) (lo hi : ℤ) (h : ∀ x ∈ l, lo ≤ x ∧ x ≤ hi) :
    (l.length : ℤ) * lo ≤ l.foldl (· + ·) 0 ∧
      l.foldl (· + ·) 0 ≤ (l.length : ℤ) * hi := by
  induction l with
  | nil => simp
  | cons x t ih =>
    have hx := h x (List.mem_cons_self x t)
    have ht := ih (fun y hy => h y (List.mem_cons_of_mem x hy))
    simp only [List.foldl_cons, List.length_cons, zero_add]
    rw [foldl_add_shift]
    push_cast
    constructor <;> nlinarith [ht.1, ht.2, hx.1, hx.2]

theorem windowMass_bounds (seq : List SequenceElement) (s len : Nat)
    (hres : ∀ el ∈ seq, plainResidue el) (hlen : s + len ≤ seq.length) :
    (len : ℤ) * residueMass 'G' ≤ windowMass seq s len ∧
      windowMass seq s len ≤ (len : ℤ) * residueMass 'W' := by
  unfold windowMass
  set window := (seq.drop s).take len with hw
  have hwlen : window.length = len := by
    rw [hw, List.length_take, List.length_drop]
    omega
  have hmem : ∀ el ∈ window, plainResidue el := by
    intro el hel
    exact hres el (List.mem_of_mem_drop (List.mem_of_mem_take hel))
  have hdef : ∀ f ∈ window.map SequenceElement.formulas_all, massDefined f := by
    intro f hf
    obtain ⟨el, hel, rfl⟩ := List.mem_map.mp hf
    exact (formulas_all_plain el (hmem el hel).1).2
  rw [monoisotopic_eq_massValue _
    (massDefined_foldl_add _ _ (by decide) hdef)]
  simp only [Option.getD_some]
  rw [massValue_foldl_add]
  have hz : massValue MolecularFormula.empty = 0 := by decide
  rw [hz, zero_add]
  have hmap : (window.map SequenceElement.formulas_all).map massValue =
      window.map (fun el => massValue (aaFormula el.aminoacid)) := by
    rw [List.map_map]
    apply List.map_congr_left
    intro el hel
    exact (formulas_all_plain el (hmem el hel).1).1
  rw [List.map_map, show (massValue ∘ SequenceElement.formulas_all) =
    (fun el => massValue el.formulas_all) from rfl]
  have hbounds : ∀ x ∈ window.map (fun el => massValue el.formulas_all),
      residueMass 'G' ≤ x ∧ x ≤ residueMass 'W' := by
    intro x hx
    obtain ⟨el, hel, rfl⟩ := List.mem_map.mp hx
    rw [(formulas_all_plain el (hmem el hel).1).1, residueMass_eq, residueMass_eq]
    rcases (hmem el hel).2 with h | h | h | h <;> rw [h] <;> constructor <;> decide
  have := sum_bounds _ (residueMass 'G') (residueMass 'W') hbounds
  simpa [hwlen] using this

theorem within_zero (x y : ℤ) :
    MassTolerance.within ⟨0⟩ x y = true ↔ x = y := by
  simp only [MassTolerance.within, decide_eq_true_eq, zero_mul]
  constructor
  · intro h
    have h2 : |x - y| ≤ 0 := by nlinarith [abs_nonneg (x - y)]
    have h3 : x - y = 0 := abs_nonpos_iff.mp h2
    omega
  · intro h
    subst h
    simp

theorem any_within_zero_pair (a b : ℤ) :
    MassTolerance.any_within ⟨0⟩ [a] [b] = true ↔ a = b := by
  simp only [MassTolerance.any_within, List.any_cons, List.any_nil, Bool.or_false]
  exact within_zero a b

theorem window_ratio (la lb : Nat) (wa wb : ℤ)
    (ha1 : (la : ℤ) * residueMass 'G' ≤ wa) (hb2 : wb ≤ (lb : ℤ) * residueMass 'W')
    (heq : wa = wb) (hla : 1 ≤ la) (hlb : 1 ≤ lb) : la < 4 * lb := by
  have hGW : residueMass 'W' < 4 * residueMass 'G' := by decide
  have hG : (0 : ℤ) < residueMass 'G' := by decide
  have h1 : (la : ℤ) * residueMass 'G' ≤ (lb : ℤ) * residueMass 'W' := by omega
  have h2 : (lb : ℤ) * residueMass 'W' < (lb : ℤ) * (4 * residueMass 'G') := by
    have : (0 : ℤ) < lb := by exact_mod_cast hlb
    nlinarith
  have h3 : (la : ℤ) * residueMass 'G' < ((4 * lb : ℕ) : ℤ) * residueMass 'G' := by
    push_cast
    nlinarith
  have h4 : (la : ℤ) < ((4 * lb : ℕ) : ℤ) :=
    lt_of_mul_lt_mul_right (by nlinarith) (le_of_lt hG)
  exact_mod_cast h4

/-! ### Mass table and best-candidate lemmas -/

theorem calc_masses_get (steps : Nat) (seq : List SequenceElement) (la i : Nat)
    (h1 : 1 ≤ la) (h2 : la ≤ steps) (hi : i ≤ seq.length) :
    ((calculate_masses steps seq).getD (la - 1) []).getD i [] =
      [if i < la then 0 else windowMass seq (i - la) la] := by
  unfold calculate_masses
  have hlt : la - 1 < (List.range' 1 steps).length := by
    simp only [List.length_range']
    omega
  have e1 : (List.map (fun size =>
      (List.range (seq.length + 1)).map
        (fun index =>
          if index < size then [0]
          else
            [((((seq.drop (index - size)).take size).map
                SequenceElement.formulas_all).foldl MolecularFormula.add
                MolecularFormula.empty).monoisotopic_mass.getD 0]))
      (List.range' 1 steps)).getD (la - 1) [] =
      (List.range (seq.length + 1)).map
        (fun index =>
          if index < la then [0]
          else
            [((((seq.drop (index - la)).take la).map
                SequenceElement.formulas_all).foldl MolecularFormula.add
                MolecularFormula.empty).monoisotopic_mass.getD 0]) := by
    rw [List.getD_eq_getElem _ _ (by simpa using hlt), List.getElem_map,
      List.getElem_range']
    have hval : 1 + 1 * (la - 1) = la := by omega
    rw [hval]
  rw [e1]
  have hlt2 : i < (List.range (seq.length + 1)).length := by
    simp only [List.length_range]
    omega
  rw [List.getD_eq_getElem _ _ (by simpa using hlt2), List.getElem_map,
    List.getElem_range]
  by_cases h : i < la <;> simp [h, windowMass]

theorem pickBest_mem (values : List Piece) (h : values ≠ []) :
    pickBest values ∈ values := by
  unfold pickBest
  have : ∀ (l : List Piece) (a : Piece), ((l.foldl
      (fun (acc : Option Piece) v =>
        match acc with
        | none => some v
        | some a => if v.score ≥ a.score then some v else some a)
      (some a)).getD Piece.default) = a ∨
      ((l.foldl (fun (acc : Option Piece) v =>
        match acc with
        | none => some v
        | some a => if v.score ≥ a.score then some v else some a)
      (some a)).getD Piece.default) ∈ l := by
    intro l
    induction l with
    | nil => intro a; left; rfl
    | cons x t ih =>
      intro a
      simp only [List.foldl_cons]
      by_cases hc : x.score ≥ a.score
      · rw [if_pos hc]
        rcases ih x with h | h
        · right; rw [h]; exact List.mem_cons_self x t
        · right; exact List.mem_cons_of_mem x h
      · rw [if_neg hc]
        rcases ih a with h | h
        · left; exact h
        · right; exact List.mem_cons_of_mem x h
  cases values with
  | nil => exact absurd rfl h
  | cons x t =>
    simp only [List.foldl_cons]
    rcases this t x with h2 | h2
    · rw [h2]; exact List.mem_cons_self x t
    · exact List.mem_cons_of_mem x h2

theorem pickBest_spec (values : List Piece) (v : Piece) (hv : v ∈ values)
    (hmax : ∀ w ∈ values, w.score < v.score ∨ w = v) : pickBest values = v := by
  unfold pickBest
  have key : ∀ (l : List Piece) (a : Piece),
      (a = v ∨ (a.score < v.score ∧ v ∈ l)) →
      (∀ w ∈ l, w.score < v.score ∨ w = v) →
      (l.foldl (fun (acc : Option Piece) w =>
        match acc with
        | none => some w
        | some a => if w.score ≥ a.score then some w else some a)
      (some a)) = some v := by
    intro l
    induction l with
    | nil =>
      intro a ha _
      rcases ha with h | h
      · rw [h]
        rfl
      · exact absurd h.2 (List.not_mem_nil v)
    | cons x t ih =>
      intro a ha hall
      simp only [List.foldl_cons]
      rcases hall x (List.mem_cons_self x t) with hx | hx
      · -- x is strictly below v
        rcases ha with h | h
        · subst h
          rw [if_neg (by omega)]
          exact ih a (Or.inl rfl) (fun w hw => hall w (List.mem_cons_of_mem x hw))
        · have hvt : v ∈ t := by
            rcases List.mem_cons.mp h.2 with h2 | h2
            · subst h2; omega
            · exact h2
          by_cases hc : x.score ≥ a.score
          · rw [if_pos hc]
            exact ih x (Or.inr ⟨hx, hvt⟩)
              (fun w hw => hall w (List.mem_cons_of_mem x hw))
          · rw [if_neg hc]
            exact ih a (Or.inr ⟨h.1, hvt⟩)
              (fun w hw => hall w (List.mem_cons_of_mem x hw))
      · -- x = v
        by_cases hc : x.score ≥ a.score
        · rw [if_pos hc]
          exact ih x (Or.inl hx) (fun w hw => hall w (List.mem_cons_of_mem x hw))
        · rw [if_neg hc]
          rcases ha with h | h
          · exact ih a (Or.inl h) (fun w hw => hall w (List.mem_cons_of_mem x hw))
          · exfalso
            have hxs : x.score = v.score := by rw [hx]
            omega
  cases values with
  | nil => exact absurd hv (List.not_mem_nil v)
  | cons x t =>
    simp only [List.foldl_cons]
    have hx := hmax x (List.mem_cons_self x t)
    rcases hx with hx | hx
    · have hvt : v ∈ t := by
        rcases List.mem_cons.mp hv with h2 | h2
        · subst h2; omega
        · exact h2
      rw [key t x (Or.inr ⟨hx, hvt⟩) (fun w hw => hmax w (List.mem_cons_of_mem x hw))]
      rfl
    · subst hx
      rw [key t x (Or.inl rfl) (fun w hw => hmax w (List.mem_cons_of_mem x hw))]
      rfl

theorem cellValues_eq_filterMap (steps : Nat) (seq_a seq_b : List SequenceElement)
    (masses_a masses_b : List (List (List ℤ))) (tolerance : MassTolerance)
    (alphabet : Char → Char → Int) (m : Matrix) (ia ib : Nat) :
    cellValues steps seq_a seq_b masses_a masses_b tolerance alphabet m ia ib =
      (lensList steps).filterMap
        (cellCandidate steps seq_a seq_b masses_a masses_b tolerance alphabet m ia ib) := by
  unfold cellValues
  have : ∀ (l : List (Nat × Nat)) (acc : List Piece),
      l.foldl (fun values lens =>
        match cellCandidate steps seq_a seq_b masses_a masses_b tolerance alphabet
            m ia ib lens with
        | some p => values ++ [p]
        | none => values) acc =
      acc ++ l.filterMap
        (cellCandidate steps seq_a seq_b masses_a masses_b tolerance alphabet m ia ib) := by
    intro l
    induction l with
    | nil => intro acc; simp
    | cons x t ih =>
      intro acc
      simp only [List.foldl_cons, List.filterMap_cons]
      cases hc : cellCandidate steps seq_a seq_b masses_a masses_b tolerance alphabet
          m ia ib x with
      | none => rw [ih]
      | some p => rw [ih]; simp
  rw [this _ []]
  rfl

theorem mem_lensList (steps : Nat) (lens : Nat × Nat) :
    lens ∈ lensList steps ↔ lens.1 ≤ steps ∧ lens.2 ≤ steps := by
  unfold lensList
  rw [List.mem_flatMap]
  constructor
  · rintro ⟨a, ha, hb⟩
    rw [List.mem_range] at ha
    rw [List.mem_map] at hb
    obtain ⟨b, hb2, rfl⟩ := hb
    rw [List.mem_range] at hb2
    exact ⟨by omega, by omega⟩
  · rintro ⟨h1, h2⟩
    refine ⟨lens.1, by rw [List.mem_range]; omega, ?_⟩
    rw [List.mem_map]
    exact ⟨lens.2, by rw [List.mem_range]; omega, rfl⟩

theorem diag_pair_mem (steps : Nat) (hsteps : 1 ≤ steps) :
    ((1 : Nat), (1 : Nat)) ∈ lensList steps := by
  rw [mem_lensList]
  exact ⟨hsteps, hsteps⟩

/-! ### Potential-function arithmetic -/

theorem phi_diag (i : Nat) : phi i i = 8 * (i : ℤ) := by
  unfold phi
  simp

theorem phi_gap_b (i j : Nat) (hj : 1 ≤ j) : phi i (j - 1) - 1 ≤ phi i j := by
  unfold phi
  have hc : ((j - 1 : Nat) : ℤ) = (j : ℤ) - 1 := by
    push_cast [Nat.cast_sub hj]
    ring
  rw [hc]
  rcases abs_cases ((i : ℤ) - j) with ⟨e1, _⟩ | ⟨e1, _⟩ <;>
    rcases abs_cases ((i : ℤ) - ((j : ℤ) - 1)) with ⟨e2, _⟩ | ⟨e2, _⟩ <;>
      rw [e1, e2] <;> simp only [min_def] <;> split_ifs <;> omega

theorem phi_gap_a (i j : Nat) (hi : 1 ≤ i) : phi (i - 1) j - 1 ≤ phi i j := by
  unfold phi
  have hc : ((i - 1 : Nat) : ℤ) = (i : ℤ) - 1 := by
    push_cast [Nat.cast_sub hi]
    ring
  rw [hc]
  rcases abs_cases ((i : ℤ) - j) with ⟨e1, _⟩ | ⟨e1, _⟩ <;>
    rcases abs_cases (((i : ℤ) - 1) - (j : ℤ)) with ⟨e2, _⟩ | ⟨e2, _⟩ <;>
      rw [e1, e2] <;> simp only [min_def] <;> split_ifs <;> omega

theorem phi_pair (i j : Nat) (hi : 1 ≤ i) (hj : 1 ≤ j) :
    phi (i - 1) (j - 1) + 8 ≤ phi i j := by
  unfold phi
  have hci : ((i - 1 : Nat) : ℤ) = (i : ℤ) - 1 := by
    push_cast [Nat.cast_sub hi]
    ring
  have hcj : ((j - 1 : Nat) : ℤ) = (j : ℤ) - 1 := by
    push_cast [Nat.cast_sub hj]
    ring
  rw [hci, hcj]
  rcases abs_cases ((i : ℤ) - j) with ⟨e1, _⟩ | ⟨e1, _⟩ <;>
    rcases abs_cases (((i : ℤ) - 1) - ((j : ℤ) - 1)) with ⟨e2, _⟩ | ⟨e2, _⟩ <;>
      rw [e1, e2] <;> simp only [min_def] <;> split_ifs <;> omega

theorem phi_rotated (i j k : Nat) (hki : k ≤ i) (hkj : k ≤ j) (hk : 2 ≤ k) :
    phi (i - k) (j - k) + 1 + 3 * (k : ℤ) ≤ phi i j - 1 := by
  unfold phi
  have hci : ((i - k : Nat) : ℤ) = (i : ℤ) - k := by
    push_cast [Nat.cast_sub hki]
    ring
  have hcj : ((j - k : Nat) : ℤ) = (j : ℤ) - k := by
    push_cast [Nat.cast_sub hkj]
    ring
  rw [hci, hcj]
  rcases abs_cases ((i : ℤ) - j) with ⟨e1, _⟩ | ⟨e1, _⟩ <;>
    rcases abs_cases (((i : ℤ) - k) - ((j : ℤ) - k)) with ⟨e2, _⟩ | ⟨e2, _⟩ <;>
      rw [e1, e2] <;> simp only [min_def] <;> split_ifs <;> omega

theorem phi_block (i j la lb : Nat) (h1 : 1 ≤ la) (h2 : la ≤ i) (h3 : 1 ≤ lb)
    (h4 : lb ≤ j) (h5 : la < 4 * lb) (h6 : lb < 4 * la) :
    phi (i - la) (j - lb) + 1 + ((la : ℤ) + lb) ≤ phi i j - 1 := by
  unfold phi
  have hci : ((i - la : Nat) : ℤ) = (i : ℤ) - la := by
    push_cast [Nat.cast_sub h2]
    ring
  have hcj : ((j - lb : Nat) : ℤ) = (j : ℤ) - lb := by
    push_cast [Nat.cast_sub h4]
    ring
  rw [hci, hcj]
  rcases abs_cases ((i : ℤ) - j) with ⟨e1, _⟩ | ⟨e1, _⟩ <;>
    rcases abs_cases (((i : ℤ) - la) - ((j : ℤ) - lb)) with ⟨e2, _⟩ | ⟨e2, _⟩ <;>
      rw [e1, e2] <;> simp only [min_def] <;> split_ifs <;> omega

theorem phi_border (x : Nat) : (borderPiece x).score = phi 0 x ∧
    (borderPiece x).score = phi x 0 := by
  unfold borderPiece phi GAP_EXTEND_PENALTY
  constructor <;> simp

/-! ### Candidate shape lemmas -/

theorem cand_gap01 (steps : Nat) (sa sb : List SequenceElement)
    (ma mb : List (List (List ℤ))) (tol : MassTolerance)
    (alph : Char → Char → Int) (m : Matrix) (i j : Nat) (hj : 1 ≤ j) :
    ∃ s : Int, (s = GAP_EXTEND_PENALTY ∨ s = GAP_START_PENALTY) ∧
      cellCandidate steps sa sb ma mb tol alph m i j (0, 1) =
        some ⟨(matrixGet m i (j - 1)).score + s, s, .Gap, 0, 1⟩ := by
  unfold cellCandidate
  simp only
  rw [if_neg (by simp; omega)]
  rw [if_pos (by simp)]
  by_cases hc : ((matrixGet m (i - 0) (j - 1)).step_a == 0 && (0:Nat) == 0) ||
      ((matrixGet m (i - 0) (j - 1)).step_b == 0 && (1:Nat) == 0)
  · refine ⟨GAP_EXTEND_PENALTY, Or.inl rfl, ?_⟩
    rw [if_pos hc]
    simp
  · refine ⟨GAP_START_PENALTY, Or.inr rfl, ?_⟩
    rw [if_neg hc]
    simp

theorem cand_gap10 (steps : Nat) (sa sb : List SequenceElement)
    (ma mb : List (List (List ℤ))) (tol : MassTolerance)
    (alph : Char → Char → Int) (m : Matrix) (i j : Nat) (hi : 1 ≤ i) :
    ∃ s : Int, (s = GAP_EXTEND_PENALTY ∨ s = GAP_START_PENALTY) ∧
      cellCandidate steps sa sb ma mb tol alph m i j (1, 0) =
        some ⟨(matrixGet m (i - 1) j).score + s, s, .Gap, 1, 0⟩ := by
  unfold cellCandidate
  simp only
  rw [if_neg (by simp; omega)]
  rw [if_pos (by simp)]
  by_cases hc : ((matrixGet m (i - 1) (j - 0)).step_a == 0 && (1:Nat) == 0) ||
      ((matrixGet m (i - 1) (j - 0)).step_b == 0 && (0:Nat) == 0)
  · refine ⟨GAP_EXTEND_PENALTY, Or.inl rfl, ?_⟩
    rw [if_pos hc]
    simp
  · refine ⟨GAP_START_PENALTY, Or.inr rfl, ?_⟩
    rw [if_neg hc]
    simp

theorem cand_pair (steps : Nat) (sa sb : List SequenceElement)
    (ma mb : List (List (List ℤ))) (tol : MassTolerance)
    (alph : Char → Char → Int) (m : Matrix) (i j : Nat) (hi : 1 ≤ i) (hj : 1 ≤ j) :
    cellCandidate steps sa sb ma mb tol alph m i j (1, 1) =
      some (score_pair
        ((sa.getD (i - 1) (SequenceElement.new 'A' none)), ((ma.getD 0 []).getD i []))
        ((sb.getD (j - 1) (SequenceElement.new 'A' none)), ((mb.getD 0 []).getD j []))
        alph (matrixGet m (i - 1) (j - 1)).score tol) := by
  unfold cellCandidate
  simp only
  rw [if_neg (by simp; omega)]
  rw [if_neg (by simp)]
  rw [if_pos (by simp)]

theorem cand_block (steps : Nat) (sa sb : List SequenceElement)
    (ma mb : List (List (List ℤ))) (tol : MassTolerance)
    (alph : Char → Char → Int) (m : Matrix) (i j la lb : Nat)
    (hla : 1 ≤ la) (hlb : 1 ≤ lb) (hne : ¬(la = 1 ∧ lb = 1))
    (hi : la ≤ i) (hj : lb ≤ j) :
    cellCandidate steps sa sb ma mb tol alph m i j (la, lb) =
      scoreBlock
        (((sa.drop (i - la)).take la), ((ma.getD (la - 1) []).getD i []))
        (((sb.drop (j - lb)).take lb), ((mb.getD (lb - 1) []).getD j []))
        (matrixGet m (i - la) (j - lb)).score tol := by
  unfold cellCandidate
  simp only
  rw [if_neg (by simp; omega)]
  rw [if_neg (by simp; omega)]
  rw [if_neg (by simp; omega)]

theorem cand_none (steps : Nat) (sa sb : List SequenceElement)
    (ma mb : List (List (List ℤ))) (tol : MassTolerance)
    (alph : Char → Char → Int) (m : Matrix) (i j la lb : Nat)
    (h : (la = 0 ∧ lb ≠ 1) ∨ (la ≠ 1 ∧ lb = 0) ∨ la > i ∨ lb > j) :
    cellCandidate steps sa sb ma mb tol alph m i j (la, lb) = none := by
  unfold cellCandidate
  simp only
  rw [if_pos (by simp; omega)]

/-! ### Score shape lemmas -/

theorem idAlphabet_le (x y : Char) : idAlphabet x y ≤ 8 := by
  unfold idAlphabet
  split
  · omega
  · simp only [MISMATCH]
    omega

theorem score_pair_le (a b : SequenceElement × List ℤ) (base : Int)
    (tol : MassTolerance) :
    (score_pair a b idAlphabet base tol).score ≤ base + 8 := by
  have hle := idAlphabet_le a.1.aminoacid b.1.aminoacid
  unfold score_pair
  cases h1 : (a.1 == b.1) <;> cases h2 : tol.any_within a.2 a.2 <;>
    simp only [MISMATCH, ISOBARIC, MASS_MISMATCH_PENALTY] <;> omega

theorem score_pair_self (el : SequenceElement) (w : ℤ) (base : Int) :
    score_pair (el, [w]) (el, [w]) idAlphabet base ⟨0⟩ =
      ⟨base + 8, 8, .FullIdentity, 1, 1⟩ := by
  unfold score_pair
  have h1 : (el == el) = true := by simp
  have h2 : MassTolerance.any_within ⟨0⟩ [w] [w] = true :=
    (any_within_zero_pair w w).mpr rfl
  rw [h1, h2]
  simp only [idAlphabet, beq_self_eq_true, if_true]

theorem scoreBlock_spec (wa wb : List SequenceElement) (xa xb : ℤ) (base : Int)
    (la lb : Nat) (hwa : wa.length = la) (hwb : wb.length = lb) (p : Piece)
    (h : scoreBlock (wa, [xa]) (wb, [xb]) base ⟨0⟩ = some p) :
    xa = xb ∧
      ((la = lb ∧ p.score = base + 1 + 3 * (la : ℤ)) ∨
        p.score = base + 1 + ((la : ℤ) + lb)) := by
  unfold scoreBlock at h
  by_cases hw : MassTolerance.any_within ⟨0⟩ [xa] [xb] = true
  · have hxy : xa = xb := (any_within_zero_pair xa xb).mp hw
    refine ⟨hxy, ?_⟩
    rw [if_pos hw] at h
    simp only [Option.some.injEq] at h
    by_cases hrot : (wa.length == wb.length && isRotated wa wb) = true
    · left
      have hlen : la = lb := by
        have h2 := ((Bool.and_eq_true _ _).mp hrot).1
        rw [hwa, hwb, beq_iff_eq] at h2
        exact h2
      refine ⟨hlen, ?_⟩
      subst h
      simp only [if_pos hrot]
      simp only [BASE_SPECIAL, ROTATED, hwa]
      ring
    · right
      subst h
      simp only [if_neg hrot]
      simp only [hwa, hwb]
      have hdiv : ISOBARIC * ((la : ℤ) + lb) / 2 = (la : ℤ) + lb := by
        rw [show ISOBARIC = 2 from rfl]
        exact Int.mul_ediv_cancel_left _ (by norm_num)
      rw [hdiv, show BASE_SPECIAL = 1 from rfl]
      ring
  · rw [if_neg hw] at h
    simp at h

theorem phi_gap_diag_b (i : Nat) (hi : 1 ≤ i) : phi i (i - 1) - 1 < phi i i := by
  unfold phi
  have hc : ((i - 1 : Nat) : ℤ) = (i : ℤ) - 1 := by
    push_cast [Nat.cast_sub hi]
    ring
  rw [hc]
  rcases abs_cases ((i : ℤ) - i) with ⟨e1, _⟩ | ⟨e1, _⟩ <;>
    rcases abs_cases ((i : ℤ) - ((i : ℤ) - 1)) with ⟨e2, _⟩ | ⟨e2, _⟩ <;>
      rw [e1, e2] <;> simp only [min_def] <;> split_ifs <;> omega

theorem phi_gap_diag_a (i : Nat) (hi : 1 ≤ i) : phi (i - 1) i - 1 < phi i i := by
  unfold phi
  have hc : ((i - 1 : Nat) : ℤ) = (i : ℤ) - 1 := by
    push_cast [Nat.cast_sub hi]
    ring
  rw [hc]
  rcases abs_cases ((i : ℤ) - i) with ⟨e1, _⟩ | ⟨e1, _⟩ <;>
    rcases abs_cases (((i : ℤ) - 1) - (i : ℤ)) with ⟨e2, _⟩ | ⟨e2, _⟩ <;>
      rw [e1, e2] <;> simp only [min_def] <;> split_ifs <;> omega

/-! ### The cell invariant step -/

theorem cell_step (steps : Nat) (seq : List SequenceElement) (m : Matrix)
    (i j : Nat)
    (hsteps : 1 ≤ steps)
    (hres : ∀ el ∈ seq, plainResidue el)
    (hi1 : 1 ≤ i) (hin : i ≤ seq.length) (hj1 : 1 ≤ j) (hjn : j ≤ seq.length)
    (hnb : ∀ x y : Nat, x ≤ seq.length → y ≤ seq.length →
      (x < i ∨ (x = i ∧ y < j)) → (matrixGet m x y).score ≤ phi x y)
    (hdiag : ∀ x : Nat, 1 ≤ x → x < i → matrixGet m x x = diagPieceAt x)
    (hzero : matrixGet m 0 0 = borderPiece 0) :
    Qcell i j (pickBest (cellValues steps seq seq (calculate_masses steps seq)
      (calculate_masses steps seq) ⟨0⟩ idAlphabet m i j)) := by
  set masses := calculate_masses steps seq with hm
  rw [cellValues_eq_filterMap]
  set cand := cellCandidate steps seq seq masses masses ⟨0⟩ idAlphabet m i j
    with hcand
  have hmass : ∀ k : Nat, 1 ≤ k → k ≤ seq.length →
      (masses.getD 0 []).getD k [] = [windowMass seq (k - 1) 1] := by
    intro k hk1 hkn
    rw [hm]
    have h := calc_masses_get steps seq 1 k (le_refl 1) hsteps hkn
    simpa [show ¬ (k < 1) by omega] using h
  have hbase_diag : ∀ k : Nat, 1 ≤ k → k ≤ i →
      (matrixGet m (k - 1) (k - 1)).score = 8 * ((k - 1 : Nat) : ℤ) := by
    intro k hk1 hki
    by_cases h0 : k - 1 = 0
    · rw [h0, hzero]
      decide
    · rw [hdiag (k - 1) (by omega) (by omega)]
      rfl
  have hall : ∀ p ∈ (lensList steps).filterMap cand,
      p.score ≤ phi i j ∧ (i = j → p = diagPieceAt i ∨ p.score < phi i j) := by
    intro p hp
    obtain ⟨lens, hmem, hc⟩ := List.mem_filterMap.mp hp
    obtain ⟨la, lb⟩ := lens
    obtain ⟨hlas, hlbs⟩ := (mem_lensList steps (la, lb)).mp hmem
    rw [hcand] at hc
    by_cases ha0 : la = 0
    · subst ha0
      by_cases hb1 : lb = 1
      · subst hb1
        obtain ⟨s, hs, he⟩ :=
          cand_gap01 steps seq seq masses masses ⟨0⟩ idAlphabet m i j hj1
        rw [he] at hc
        simp only [Option.some.injEq] at hc
        subst hc
        have hbase := hnb i (j - 1) hin (by omega) (Or.inr ⟨rfl, by omega⟩)
        have hsle : s ≤ -1 := by
          rcases hs with h | h <;> rw [h] <;> decide
        have hgb := phi_gap_b i j hj1
        have h1 : (matrixGet m i (j - 1)).score + s ≤ phi i (j - 1) - 1 := by
          omega
        constructor
        · show (matrixGet m i (j - 1)).score + s ≤ phi i j
          omega
        · intro hij
          right
          have hlt := phi_gap_diag_b j hj1
          rw [hij] at h1 ⊢
          show (matrixGet m j (j - 1)).score + s < phi j j
          omega
      · exfalso
        rw [cand_none steps seq seq masses masses ⟨0⟩ idAlphabet m i j 0 lb
          (Or.inl ⟨rfl, hb1⟩)] at hc
        exact Option.noConfusion hc
    · by_cases hb0 : lb = 0
      · subst hb0
        by_cases ha1 : la = 1
        · subst ha1
          obtain ⟨s, hs, he⟩ :=
            cand_gap10 steps seq seq masses masses ⟨0⟩ idAlphabet m i j hi1
          rw [he] at hc
          simp only [Option.some.injEq] at hc
          subst hc
          have hbase := hnb (i - 1) j (by omega) hjn (Or.inl (by omega))
          have hsle : s ≤ -1 := by
            rcases hs with h | h <;> rw [h] <;> decide
          have hga := phi_gap_a i j hi1
          have h1 : (matrixGet m (i - 1) j).score + s ≤ phi (i - 1) j - 1 := by
            omega
          constructor
          · show (matrixGet m (i - 1) j).score + s ≤ phi i j
            omega
          · intro hij
            right
            have hlt := phi_gap_diag_a j hj1
            rw [hij] at h1 ⊢
            show (matrixGet m (j - 1) j).score + s < phi j j
            omega
        · exfalso
          rw [cand_none steps seq seq masses masses ⟨0⟩ idAlphabet m i j la 0
            (Or.inr (Or.inl ⟨ha1, rfl⟩))] at hc
          exact Option.noConfusion hc
      · have hla1 : 1 ≤ la := by omega
        have hlb1 : 1 ≤ lb := by omega
        have hlai : la ≤ i := by
          by_contra hcon
          rw [cand_none steps seq seq masses masses ⟨0⟩ idAlphabet m i j la lb
            (Or.inr (Or.inr (Or.inl (by omega))))] at hc
          exact Option.noConfusion hc
        have hlbj : lb ≤ j := by
          by_contra hcon
          rw [cand_none steps seq seq masses masses ⟨0⟩ idAlphabet m i j la lb
            (Or.inr (Or.inr (Or.inr (by omega))))] at hc
          exact Option.noConfusion hc
        by_cases h11 : la = 1 ∧ lb = 1
        · obtain ⟨rfl, rfl⟩ := h11
          rw [cand_pair steps seq seq masses masses ⟨0⟩ idAlphabet m i j hi1 hj1]
            at hc
          simp only [Option.some.injEq] at hc
          subst hc
          have hbase := hnb (i - 1) (j - 1) (by omega) (by omega) (Or.inl (by omega))
          have hpp := phi_pair i j hi1 hj1
          have hb8 := score_pair_le
            ((seq.getD (i - 1) (SequenceElement.new 'A' none)),
              ((masses.getD 0 []).getD i []))
            ((seq.getD (j - 1) (SequenceElement.new 'A' none)),
              ((masses.getD 0 []).getD j []))
            ((matrixGet m (i - 1) (j - 1)).score) ⟨0⟩
          constructor
          · omega
          · intro hij
            left
            subst hij
            rw [hmass i hi1 hin, score_pair_self, hbase_diag i hi1 (le_refl i)]
            simp only [diagPieceAt, Piece.mk.injEq, and_true, eq_self_iff_true]
            omega
        · rw [cand_block steps seq seq masses masses ⟨0⟩ idAlphabet m i j la lb
            hla1 hlb1 h11 hlai hlbj] at hc
          have hwa_len : ((seq.drop (i - la)).take la).length = la := by
            rw [List.length_take, List.length_drop]
            omega
          have hwb_len : ((seq.drop (j - lb)).take lb).length = lb := by
            rw [List.length_take, List.length_drop]
            omega
          have hma : (masses.getD (la - 1) []).getD i [] =
              [windowMass seq (i - la) la] := by
            rw [hm]
            have h := calc_masses_get steps seq la i hla1 hlas hin
            simpa [show ¬ (i < la) by omega] using h
          have hmb : (masses.getD (lb - 1) []).getD j [] =
              [windowMass seq (j - lb) lb] := by
            rw [hm]
            have h := calc_masses_get steps seq lb j hlb1 hlbs hjn
            simpa [show ¬ (j < lb) by omega] using h
          rw [hma, hmb] at hc
          obtain ⟨hxy, hsc⟩ := scoreBlock_spec _ _ _ _ _ la lb hwa_len hwb_len p hc
          have hbase := hnb (i - la) (j - lb) (by omega) (by omega)
            (Or.inl (by omega))
          have hba := windowMass_bounds seq (i - la) la hres (by omega)
          have hbb := windowMass_bounds seq (j - lb) lb hres (by omega)
          have hr1 : la < 4 * lb :=
            window_ratio la lb _ _ hba.1 hbb.2 hxy hla1 hlb1
          have hr2 : lb < 4 * la :=
            window_ratio lb la _ _ hbb.1 hba.2 hxy.symm hlb1 hla1
          rcases hsc with ⟨hll, hs⟩ | hs
          · subst hll
            have hk2 : 2 ≤ la := by omega
            have hrot := phi_rotated i j la hlai hlbj hk2
            exact ⟨by omega, fun _ => Or.inr (by omega)⟩
          · have hbl := phi_block i j la lb hla1 hlai hlb1 hlbj hr1 hr2
            exact ⟨by omega, fun _ => Or.inr (by omega)⟩
  by_cases hij : i = j
  · subst hij
    have hv : cand (1, 1) = some (diagPieceAt i) := by
      rw [hcand, cand_pair steps seq seq masses masses ⟨0⟩ idAlphabet m i i
        hi1 hi1, hmass i hi1 hin, score_pair_self,
        hbase_diag i hi1 (le_refl i)]
      simp only [diagPieceAt, Option.some.injEq, Piece.mk.injEq, and_true,
        eq_self_iff_true]
      omega
    have hvmem : diagPieceAt i ∈ (lensList steps).filterMap cand :=
      List.mem_filterMap.mpr ⟨(1, 1), diag_pair_mem steps hsteps, hv⟩
    have heq : pickBest ((lensList steps).filterMap cand) = diagPieceAt i := by
      apply pickBest_spec _ _ hvmem
      intro w hw
      obtain ⟨hw1, hw2⟩ := hall w hw
      rcases hw2 rfl with h | h
      · exact Or.inr h
      · left
        rw [phi_diag] at h
        exact h
    rw [heq]
    refine ⟨?_, fun _ => rfl⟩
    rw [phi_diag]
    exact le_of_eq rfl
  · have hq : ∃ q, cand (1, 1) = some q := by
      rw [hcand, cand_pair steps seq seq masses masses ⟨0⟩ idAlphabet m i j
        hi1 hj1]
      exact ⟨_, rfl⟩
    obtain ⟨q, hcq⟩ := hq
    have hmemq : q ∈ (lensList steps).filterMap cand :=
      List.mem_filterMap.mpr ⟨(1, 1), diag_pair_mem steps hsteps, hcq⟩
    have hne : (lensList steps).filterMap cand ≠ [] := by
      intro h
      rw [h] at hmemq
      exact List.not_mem_nil q hmemq
    have hmem := pickBest_mem _ hne
    obtain ⟨hb, _⟩ := hall _ hmem
    exact ⟨hb, fun h => absurd h hij⟩

/-! ### The matrix-filling induction -/

theorem fill_step (steps : Nat) (seq : List SequenceElement) (M : Matrix)
    (i j : Nat) (hsteps : 1 ≤ steps) (hres : ∀ el ∈ seq, plainResidue el)
    (hi1 : 1 ≤ i) (hin : i ≤ seq.length) (hj1 : 1 ≤ j) (hjn : j ≤ seq.length)
    (hI : fillInv seq.length M i j) :
    fillInv seq.length
      (matrixSet M i j (pickBest (cellValues steps seq seq
        (calculate_masses steps seq) (calculate_masses steps seq) ⟨0⟩
        idAlphabet M i j))) i (j + 1) := by
  obtain ⟨hwf, hb0, hbx, hq⟩ := hI
  have hnb : ∀ x y : Nat, x ≤ seq.length → y ≤ seq.length →
      (x < i ∨ (x = i ∧ y < j)) → (matrixGet M x y).score ≤ phi x y := by
    intro x y hx hy hlex
    by_cases hx0 : x = 0
    · subst hx0
      rw [hb0 y hy]
      exact le_of_eq (phi_border y).1
    · by_cases hy0 : y = 0
      · subst hy0
        rw [hbx x hx]
        exact le_of_eq (phi_border x).2
      · exact (hq x y (by omega) hx (by omega) hy hlex).1
  have hdiag : ∀ x : Nat, 1 ≤ x → x < i → matrixGet M x x = diagPieceAt x := by
    intro x h1 h2
    exact (hq x x h1 (by omega) h1 (by omega) (Or.inl h2)).2 rfl
  have hzero : matrixGet M 0 0 = borderPiece 0 := hb0 0 (by omega)
  have hQ := cell_step steps seq M i j hsteps hres hi1 hin hj1 hjn hnb hdiag hzero
  refine ⟨wfMat_set _ _ _ _ _ hwf, ?_, ?_, ?_⟩
  · intro y hy
    rw [matrixGet_set M seq.length i j 0 y _ hwf hin hjn, if_neg (by omega)]
    exact hb0 y hy
  · intro x hx
    rw [matrixGet_set M seq.length i j x 0 _ hwf hin hjn, if_neg (by omega)]
    exact hbx x hx
  · intro x y hx1 hxn hy1 hyn hlex
    rw [matrixGet_set M seq.length i j x y _ hwf hin hjn]
    by_cases hxy : x = i ∧ y = j
    · rw [if_pos hxy]
      obtain ⟨rfl, rfl⟩ := hxy
      exact hQ
    · rw [if_neg hxy]
      apply hq x y hx1 hxn hy1 hyn
      omega

theorem fill_fold_cols (steps : Nat) (seq : List SequenceElement)
    (hsteps : 1 ≤ steps) (hres : ∀ el ∈ seq, plainResidue el)
    (i : Nat) (hi1 : 1 ≤ i) (hin : i ≤ seq.length) :
    ∀ (cnt j0 : Nat), 1 ≤ j0 → j0 + cnt ≤ seq.length + 1 →
    ∀ (M : Matrix) (high : Int × Nat × Nat), fillInv seq.length M i j0 →
    fillInv seq.length
      ((((List.range' j0 cnt).map (fun ib => (i, ib))).foldl
        (fun acc idx =>
          let value := pickBest (cellValues steps seq seq
            (calculate_masses steps seq) (calculate_masses steps seq) ⟨0⟩
            idAlphabet acc.1 idx.1 idx.2)
          let high := if value.score ≥ acc.2.1 then (value.score, idx.1, idx.2)
            else acc.2
          (matrixSet acc.1 idx.1 idx.2 value, high))
        (M, high)).1) i (j0 + cnt) := by
  intro cnt
  induction cnt with
  | zero =>
    intro j0 _ _ M high hI
    simpa using hI
  | succ c ih =>
    intro j0 hj0 hbound M high hI
    rw [List.range'_succ]
    simp only [List.map_cons, List.foldl_cons]
    have hstep := fill_step steps seq M i j0 hsteps hres hi1 hin hj0
      (by omega) hI
    rw [show j0 + (c + 1) = (j0 + 1) + c by omega]
    exact ih (j0 + 1) (by omega) (by omega) _ _ hstep

theorem fillInv_rowend (n : Nat) (M : Matrix) (i : Nat)
    (hI : fillInv n M i (1 + n)) : fillInv n M (i + 1) 1 := by
  obtain ⟨h1, h2, h3, h4⟩ := hI
  refine ⟨h1, h2, h3, ?_⟩
  intro x y hx1 hxn hy1 hyn hlex
  apply h4 x y hx1 hxn hy1 hyn
  omega

theorem fill_fold_rows (steps : Nat) (seq : List SequenceElement)
    (hsteps : 1 ≤ steps) (hres : ∀ el ∈ seq, plainResidue el) :
    ∀ (cnt i0 : Nat), 1 ≤ i0 → i0 + cnt ≤ seq.length + 1 →
    ∀ (M : Matrix) (high : Int × Nat × Nat), fillInv seq.length M i0 1 →
    fillInv seq.length
      ((((List.range' i0 cnt).flatMap (fun ia =>
          (List.range' 1 seq.length).map (fun ib => (ia, ib)))).foldl
        (fun acc idx =>
          let value := pickBest (cellValues steps seq seq
            (calculate_masses steps seq) (calculate_masses steps seq) ⟨0⟩
            idAlphabet acc.1 idx.1 idx.2)
          let high := if value.score ≥ acc.2.1 then (value.score, idx.1, idx.2)
            else acc.2
          (matrixSet acc.1 idx.1 idx.2 value, high))
        (M, high)).1) (i0 + cnt) 1 := by
  intro cnt
  induction cnt with
  | zero =>
    intro i0 _ _ M high hI
    simpa using hI
  | succ c ih =>
    intro i0 hi0 hbound M high hI
    rw [List.range'_succ]
    rw [List.flatMap_cons, List.foldl_append]
    have hcols := fill_fold_cols steps seq hsteps hres i0 hi0 (by omega)
      seq.length 1 (by omega) (by omega) M high hI
    have hnext := fillInv_rowend seq.length _ i0 hcols
    rw [show i0 + (c + 1) = (i0 + 1) + c by omega]
    exact ih (i0 + 1) (by omega) (by omega) _ _ hnext

theorem fill_final (steps : Nat) (seq : List SequenceElement)
    (hsteps : 1 ≤ steps) (hres : ∀ el ∈ seq, plainResidue el) :
    fillInv seq.length
      ((fillMatrix steps seq seq (calculate_masses steps seq)
        (calculate_masses steps seq) ⟨0⟩ idAlphabet
        (globalStart (globalStart (matrixNew seq.length seq.length) true
          seq.length) false seq.length)).1)
      (1 + seq.length) 1 := by
  unfold fillMatrix
  have hI0 : fillInv seq.length
      (globalStart (globalStart (matrixNew seq.length seq.length) true
        seq.length) false seq.length) 1 1 := by
    refine ⟨wfMat_globalStart _ _ _ _ (wfMat_globalStart _ _ _ _
      (wfMat_new seq.length)), ?_, ?_, ?_⟩
    · intro y hy
      rw [m2_get, if_pos ⟨rfl, hy⟩]
    · intro x hx
      rw [m2_get]
      by_cases hx0 : x = 0
      · subst hx0
        rw [if_pos ⟨rfl, by omega⟩]
      · rw [if_neg (by simp [hx0]), if_pos ⟨rfl, hx⟩]
    · intro x y hx1 hxn hy1 hyn hlex
      exfalso
      omega
  exact fill_fold_rows steps seq hsteps hres seq.length 1 (by omega) (by omega)
    _ _ hI0

/-! ### Trace-back lemmas -/

theorem traceLoop_step (M : Matrix) (f : Nat) (pos : Nat × Nat)
    (path : List Piece) :
    traceLoop M AlignType.global (f + 1) pos path =
      if (AlignType.global.left_a && AlignType.global.left_b) ||
          !(pos.1 == 0 && pos.2 == 0) then
        let value := matrixGet M pos.1 pos.2
        if (value.step_a == 0 && value.step_b == 0) ||
            (!AlignType.global.left_a && !AlignType.global.left_b &&
              value.score < 0) then
          (pos, path)
        else
          traceLoop M AlignType.global f
            (pos.1 - value.step_a, pos.2 - value.step_b) (value :: path)
      else (pos, path) := rfl

theorem traceLoop_diag (M : Matrix) (n : Nat)
    (hd : ∀ x : Nat, 1 ≤ x → x ≤ n → matrixGet M x x = diagPieceAt x)
    (h0 : matrixGet M 0 0 = borderPiece 0) :
    ∀ (k fuel : Nat) (path : List Piece), k ≤ n → k + 1 ≤ fuel →
    traceLoop M AlignType.global fuel (k, k) path =
      ((0, 0), ((List.range' 1 k).map diagPieceAt) ++ path) := by
  intro k
  induction k with
  | zero =>
    intro fuel path _ hfuel
    obtain ⟨f, rfl⟩ : ∃ f, fuel = f + 1 := ⟨fuel - 1, by omega⟩
    rw [traceLoop_step]
    rw [if_pos (by simp [AlignType.global])]
    simp only [h0]
    rw [if_pos (by simp [borderPiece])]
    simp
  | succ k ih =>
    intro fuel path hk hfuel
    obtain ⟨f, rfl⟩ : ∃ f, fuel = f + 1 := ⟨fuel - 1, by omega⟩
    rw [traceLoop_step]
    rw [if_pos (by simp [AlignType.global])]
    simp only [hd (k + 1) (by omega) hk]
    rw [if_neg (by simp [diagPieceAt, AlignType.global])]
    simp only [diagPieceAt]
    rw [show k + 1 - 1 = k from rfl]
    rw [show (⟨8 * ((k + 1 : Nat) : ℤ), 8, MatchType.FullIdentity, 1, 1⟩ : Piece)
      = diagPieceAt (k + 1) from rfl]
    rw [ih f (diagPieceAt (k + 1) :: path) (by omega) (by omega)]
    rw [List.range'_concat]
    simp only [List.map_append, List.map_cons, List.map_nil,
      List.append_assoc, List.singleton_append]
    rw [show 1 + 1 * k = k + 1 by omega]

theorem findEnd_global (M : Matrix) (a b : Nat) (high : Int × Nat × Nat) :
    findEnd M a b AlignType.global high = ((matrixGet M a b).score, a, b) := by
  unfold findEnd
  rw [if_pos (by simp [AlignType.global])]

theorem foldl_add_shift_nat (l : List ℕ) (a : ℕ) :
    l.foldl (· + ·) a = a + l.foldl (· + ·) 0 := by
  induction l generalizing a with
  | nil => simp
  | cons x t ih =>
    simp only [List.foldl_cons]
    rw [ih (a + x), ih (0 + x)]
    omega

theorem foldl_ones {A : Type} (l : List A) :
    (l.map (fun _ => (1 : ℕ))).foldl (· + ·) 0 = l.length := by
  induction l with
  | nil => rfl
  | cons x t ih =>
    simp only [List.map_cons, List.foldl_cons, List.length_cons]
    rw [foldl_add_shift_nat, ih]
    omega

theorem diag_path_steps_a (n : Nat) :
    (((List.range' 1 n).map diagPieceAt).map (fun q => q.step_a)).foldl
      (· + ·) 0 = n := by
  rw [List.map_map]
  rw [show ((fun q => Piece.step_a q) ∘ diagPieceAt) = (fun _ => (1 : ℕ))
    from rfl, foldl_ones, List.length_range']

theorem diag_path_steps_b (n : Nat) :
    (((List.range' 1 n).map diagPieceAt).map (fun q => q.step_b)).foldl
      (· + ·) 0 = n := by
  rw [List.map_map]
  rw [show ((fun q => Piece.step_b q) ∘ diagPieceAt) = (fun _ => (1 : ℕ))
    from rfl, foldl_ones, List.length_range']

/-! ### C7: self-alignment is perfect -/

/-- C7: aligning a non-empty simple peptide (no labile or global
modifications, no charge carriers, plain modelled residues) against itself
with the identity-favouring alphabet, zero mass tolerance and the fully
anchored (global) alignment type yields a path without gap steps and a
normalised score of exactly 1. -/
theorem self_alignment_perfect (steps : Nat) (p : LinearPeptide)
    (hsteps1 : 1 ≤ steps) (hsteps32 : steps ≤ 32)
    (hlab : p.labile = []) (hglob : p.global = [])
    (hcc : p.charge_carriers = none)
    (hne : p.sequence ≠ [])
    (hres : ∀ el ∈ p.sequence, plainResidue el) :
    ∃ al : Alignment,
      align steps p p idAlphabet ⟨0⟩ AlignType.global = some al ∧
      (∀ q ∈ al.path, q.matchType ≠ MatchType.Gap) ∧
      al.normalised_score = 1 := by
  have hn1 : 1 ≤ p.sequence.length := List.length_pos.mpr hne
  have hfill := fill_final steps p.sequence hsteps1 hres
  set n := p.sequence.length with hn
  set M := (fillMatrix steps p.sequence p.sequence
    (calculate_masses steps p.sequence) (calculate_masses steps p.sequence)
    ⟨0⟩ idAlphabet (globalStart (globalStart (matrixNew n n) true n)
      false n)).1 with hM
  have hdiagM : ∀ x : Nat, 1 ≤ x → x ≤ n → matrixGet M x x = diagPieceAt x :=
    fun x h1 h2 => (hfill.2.2.2 x x h1 h2 h1 h2 (by omega)).2 rfl
  have h00 : matrixGet M 0 0 = borderPiece 0 := hfill.2.1 0 (by omega)
  have hMnn : matrixGet M n n = diagPieceAt n := hdiagM n hn1 le_rfl
  have htrace := traceLoop_diag M n hdiagM h00 n (n + n + 1) [] le_rfl (by omega)
  have htp : ∀ high : Int × Nat × Nat,
      trace_path M n n AlignType.global high =
        ((diagPieceAt n).score, 0, 0, (List.range' 1 n).map diagPieceAt) := by
    intro high
    unfold trace_path
    rw [findEnd_global, hMnn]
    simp only
    rw [htrace]
    simp
  unfold align
  rw [if_pos (by simp [hlab, hglob, hcc, hne, hsteps32])]
  simp only [AlignType.global, if_true]
  have hlen : p.len = n := rfl
  simp only [hlen]
  rw [← hM]
  rw [show (⟨true, true, true, true⟩ : AlignType) = AlignType.global from rfl]
  simp only [htp]
  have htake : List.take n p.sequence = p.sequence := by
    rw [hn]
    exact List.take_length p.sequence
  have hsc : (diagPieceAt n).score = 8 * (n : ℤ) := rfl
  simp only [diag_path_steps_a, diag_path_steps_b, List.drop_zero, htake, hsc]
  have hS : ((p.sequence.map (fun el => idAlphabet el.aminoacid el.aminoacid)).foldl
      (· + ·) 0) = (n : ℤ) * 8 := by
    have hb := sum_bounds (p.sequence.map
      (fun el => idAlphabet el.aminoacid el.aminoacid)) 8 8 ?_
    · rw [List.length_map] at hb
      omega
    · intro x hx
      obtain ⟨el, _, rfl⟩ := List.mem_map.mp hx
      unfold idAlphabet
      simp
  simp only [hS]
  have hmax : ((n : ℤ) * 8 + (n : ℤ) * 8) / 2 = 8 * (n : ℤ) := by omega
  simp only [hmax]
  refine ⟨_, rfl, ?_, ?_⟩
  · intro q hq
    obtain ⟨k, hk, rfl⟩ := List.mem_map.mp hq
    simp only [diagPieceAt]
    decide
  · show ((8 * (n : ℤ) : ℤ) : ℚ) / ((8 * (n : ℤ) : ℤ) : ℚ) = 1
    have hnz : ((8 * (n : ℤ) : ℤ) : ℚ) ≠ 0 := by
      have h8 : (8 * (n : ℤ)) ≠ 0 := by omega
      exact_mod_cast h8
    exact div_self hnz

/-- Witness for C7: the peptide `AA` aligned against itself. -/
theorem self_alignment_perfect_witness :
    ∃ al : Alignment,
      align 1 pepAA pepAA idAlphabet ⟨0⟩ AlignType.global = some al ∧
      (∀ q ∈ al.path, q.matchType ≠ MatchType.Gap) ∧
      al.normalised_score = 1 :=
  self_alignment_perfect 1 pepAA (by decide) (by decide) rfl rfl rfl
    (by decide) (by decide)

/-! ### C1: the plain-residue round trip -/

theorem ok_bind {A B : Type} (a : A) (f : A → ParseOutcome B) :
    (ParseOutcome.ok a >>= f) = f a := rfl

theorem charAt_eq (chars : List Char) (i : Nat) (c : Char)
    (h : chars.get? i = some c) : charAt chars i = .ok c := by
  unfold charAt
  rw [h]

theorem validAA_not_special (c : Char) (h : validAminoAcid c = true) :
    (c == '(') = false ∧ (c == ')') = false ∧ (c == '[') = false ∧
    (c == '-') = false ∧ (c == '+') = false ∧ (c == ' ') = false ∧
    (c == '<') = false ∧ (c == '{') = false := by
  unfold validAminoAcid at h
  have hmem : c ∈ "ABCDEFGHIKLMNPQRSTUVWYZX".toList := by simpa using h
  fin_cases hmem <;> decide

theorem globalLoop_skip (chars : List Char) (f : Nat) (st : InnerState)
    (c : Char) (hget : chars.get? st.index = some c)
    (hc : (c == '<') = false) :
    globalLoop chars (f + 1) st = .ok st := by
  rw [globalLoop]
  rw [charAt_eq chars st.index c hget, ok_bind]
  rw [hc]
  simp

theorem labileLoop_skip (chars : List Char) (f : Nat) (st : InnerState)
    (c : Char) (hget : chars.get? st.index = some c)
    (hc : (c == '{') = false) :
    labileLoop chars (f + 1) st = .ok st := by
  rw [labileLoop]
  rw [charAt_eq chars st.index c hget, ok_bind]
  rw [hc]
  simp

theorem ntermStep_skip (chars : List Char) (st : InnerState)
    (c : Char) (hget : chars.get? st.index = some c)
    (hc : (c == '[') = false) :
    ntermStep chars st = .ok st := by
  unfold ntermStep
  rw [charAt_eq chars st.index c hget, ok_bind]
  rw [hc]
  simp

theorem mainLoop_letters (chars : List Char) :
    ∀ (fuel : Nat) (st : InnerState),
    chars.length - st.index < fuel →
    st.index ≤ chars.length →
    st.c_term = false →
    st.ambiguous_aa = none →
    (∀ k : Nat, st.index ≤ k → k < chars.length →
      validAminoAcid (chars.getD k ' ') = true) →
    mainLoop chars fuel st =
      .ok { st with
            peptide := { st.peptide with
              sequence := st.peptide.sequence ++
                ((chars.drop st.index).map
                  (fun ch => SequenceElement.new ch none)) }
            index := chars.length } := by
  intro fuel
  induction fuel with
  | zero =>
    intro st hf _ _ _ _
    omega
  | succ f ih =>
    intro st hf hle hct hamb hval
    rw [mainLoop]
    by_cases h : st.index < chars.length
    · rw [dif_pos h]
      have hc : chars.getD st.index ' ' = chars.get ⟨st.index, h⟩ := by
        rw [List.getD_eq_getElem chars ' ' h]
        rfl
      have hv := hval st.index (le_refl _) h
      rw [hc] at hv
      obtain ⟨h1, h2, h3, h4, h5, h6, h7, h8⟩ :=
        validAA_not_special (chars.get ⟨st.index, h⟩) hv
      simp only [hct, h1, h2, h3, h4, h5, hamb, Bool.not_false, Bool.true_and,
        Bool.false_and, Bool.and_false, Option.isSome_none, if_false,
        Bool.false_eq_true, hv, if_true]
      have hdrop : chars.drop st.index =
          chars.get ⟨st.index, h⟩ :: chars.drop (st.index + 1) := by
        rw [List.drop_eq_getElem_cons h]
        rfl
      refine (ih _ ?_ ?_ ?_ ?_ ?_).trans ?_
      · show chars.length - (st.index + 1) < f
        omega
      · show st.index + 1 ≤ chars.length
        omega
      · rfl
      · rfl
      · intro k hk1 hk2
        have hk1' : st.index + 1 ≤ k := hk1
        exact hval k (by omega) hk2
      · rw [hdrop]
        simp [hct, hamb, List.append_assoc]
        conv_rhs => rw [List.drop_eq_getElem_cons
          (show st.index < (List.map (fun ch => SequenceElement.new ch none)
            chars).length by simpa using h)]
        simp
    · rw [dif_neg h]
      have hidx : st.index = chars.length := by omega
      rw [List.drop_eq_nil_of_le (by omega)]
      simp only [List.map_nil, List.append_nil]
      rw [← hidx]

theorem fillAmbiguous_nil (lookup : AmbiguousLookup) (p : LinearPeptide) :
    fillAmbiguous lookup [] p = .ok p := rfl

theorem pro_forma_inner_letters (chars : List Char) (c0 : Char) (t : List Char)
    (hc : chars = c0 :: t)
    (hval : ∀ c ∈ chars, validAminoAcid c = true) :
    pro_forma_inner chars 0 =
      .ok (⟨[], [], none, none,
        chars.map (fun ch => SequenceElement.new ch none), [], none⟩,
        chars.length) := by
  have hget : chars.get? 0 = some c0 := by rw [hc]; rfl
  have hv0 : validAminoAcid c0 = true := hval c0 (by rw [hc]; exact List.mem_cons_self c0 t)
  obtain ⟨_, _, h3, _, _, h6, h7, h8⟩ := validAA_not_special c0 hv0
  have hall : (chars.all (fun c => c == ' ')) = false := by
    rw [hc]
    simp only [List.all_cons, h6, Bool.false_and]
  unfold pro_forma_inner
  rw [if_neg (by rw [hall]; exact Bool.false_ne_true)]
  simp only []
  rw [globalLoop_skip chars chars.length _ c0 hget h7, ok_bind]
  rw [labileLoop_skip chars chars.length _ c0 hget h8, ok_bind]
  rw [ntermStep_skip chars _ c0 hget h3, ok_bind]
  rw [mainLoop_letters chars (chars.length + 2) _
    (by show chars.length - 0 < chars.length + 2; omega)
    (by show 0 ≤ chars.length; omega) rfl rfl
    (fun k hk1 hk2 => by
      rw [List.getD_eq_getElem chars ' ' hk2]
      exact hval _ (List.getElem_mem hk2)), ok_bind]
  rfl

theorem pro_forma_letters (cs : List Char) (hne : cs ≠ [])
    (hval : ∀ c ∈ cs, validAminoAcid c = true) :
    pro_forma (String.mk cs) =
      .ok (.Singular ⟨[], [], none, none,
        cs.map (fun ch => SequenceElement.new ch none), [], none⟩) := by
  obtain ⟨c0, t, rfl⟩ : ∃ c0 t, cs = c0 :: t := by
    cases cs with
    | nil => exact absurd rfl hne
    | cons a b => exact ⟨a, b, rfl⟩
  unfold pro_forma
  rw [show (String.mk (c0 :: t)).toList = c0 :: t from rfl]
  simp only []
  rw [pro_forma_inner_letters (c0 :: t) c0 t rfl hval, ok_bind]
  rw [proFormaLoop]
  rw [if_neg (lt_irrefl (c0 :: t).length), ok_bind]
  rfl

theorem display_fold_plain (l : List Char) :
    ∀ (a : List Char) (pl : List Nat),
    (l.map (fun c => SequenceElement.new c none)).foldl
      (fun (acc : List Char × List Nat × Option Nat) el =>
        let step := el.display acc.2.1 acc.2.2
        (acc.1 ++ step.1, step.2, el.ambiguous))
      (a, pl, none) = (a ++ l, pl, none) := by
  induction l with
  | nil =>
    intro a pl
    simp
  | cons c t ih =>
    intro a pl
    simp only [List.map_cons, List.foldl_cons]
    exact (ih (a ++ [c]) pl).trans (by simp)

theorem display_plain (cs : List Char) :
    LinearPeptide.display ⟨[], [], none, none,
      cs.map (fun ch => SequenceElement.new ch none), [], none⟩ = cs := by
  unfold LinearPeptide.display
  rw [display_fold_plain cs [] []]
  simp

/-- C1 (amended): for every non-empty plain-residue notation string (a
string of valid amino-acid codes, the modification-free core of the
grammar) the parse succeeds and re-parsing the displayed form yields the
identical structured value; the original universal claim is refuted by the
accepted input `"-"` (see the counterexample theorem). -/
theorem roundtrip_plain_residues (cs : List Char) (hne : cs ≠ [])
    (hval : ∀ c ∈ cs, validAminoAcid c = true) :
    ∃ cp : ComplexPeptide,
      pro_forma (String.mk cs) = .ok cp ∧
      pro_forma (String.mk (ComplexPeptide.display cp)) = .ok cp := by
  refine ⟨.Singular ⟨[], [], none, none,
    cs.map (fun ch => SequenceElement.new ch none), [], none⟩,
    pro_forma_letters cs hne hval, ?_⟩
  rw [show ComplexPeptide.display (.Singular ⟨[], [], none, none,
    cs.map (fun ch => SequenceElement.new ch none), [], none⟩) =
    LinearPeptide.display ⟨[], [], none, none,
      cs.map (fun ch => SequenceElement.new ch none), [], none⟩ from rfl]
  rw [display_plain]
  exact pro_forma_letters cs hne hval

/-- Witness for C1 (amended): the plain string `AG` round-trips. -/
theorem roundtrip_plain_residues_witness :
    ∃ cp : ComplexPeptide,
      pro_forma (String.mk ['A', 'G']) = .ok cp ∧
      pro_forma (String.mk (ComplexPeptide.display cp)) = .ok cp :=
  roundtrip_plain_residues ['A', 'G'] (by decide) (by decide)

end Rustyms
